import Mathlib

/-!
Verification development for the `@jib/cli` argument-collection engine
(`src/collector.ts` together with the regexes of `src/lib/constants.ts` and
`camelize` from `src/lib/string.ts`).

The TypeScript source is shallowly embedded: JavaScript values that can flow
through the collector (strings, booleans, arrays, `undefined`) become the
inductive `JSVal`; an argv slot, which is either a string or `undefined`
(the result of `Array.prototype.shift` on an empty array), becomes
`JStr := Option String`; methods that `throw` become `Except String`
computations whose error value is the thrown message.
-/

namespace Jib

set_option maxRecDepth 4096

/-- An argv array slot: a string, or `undefined` (`none`). -/
abbrev JStr := Option String

/-- JavaScript values reachable in the collector's results. -/
inductive JSVal where
  | undef
  | bool (b : Bool)
  | str (s : String)
  | list (l : List JSVal)

/-- Models `typeof v === 'undefined'`. -/
def JSVal.isUndef : JSVal → Bool
  | .undef => true
  | _ => false

/-- JavaScript truthiness for `JSVal` (`undefined`, `false` and `""` are
falsy; every array, `true` and every non-empty string are truthy). -/
def truthy : JSVal → Bool
  | .undef => false
  | .bool b => b
  | .str s => !(s == "")
  | .list _ => true

/-- Coerce an argv slot to the value stored in a result (`undefined` stays
`undefined`). -/
def jstrv : JStr → JSVal
  | none => .undef
  | some s => .str s

/-- JavaScript `a || b`. -/
def jsOr (a b : JSVal) : JSVal := if truthy a then a else b

/-! ## The regexes of `CONSTANTS.REGEX`

`OPTARG` is `^(--?[a-z_-]+)(?:=["']?(.+)["']?)?` with the `i` flag
(flag argv pattern), `FLAGS` is `--?([a-z_-]+)` with `ig` (all flags in a
syntax string), `FLAG` is `--?[a-z_-]+(?:[\s=]?([<[])(\w+)[>\]])?$`
(trailing flag with value placeholder), `NEG` is `^--no-` anchored at the
start.
-/

/-- A character of the class `[a-z_-]` under the `i` flag. -/
def flagCharP (c : Char) : Bool := c.isAlpha || c == '_' || c == '-'

/-- Word characters: `\w` is `[A-Za-z0-9_]`. -/
def wordCharP (c : Char) : Bool := c.isAlphanum || c == '_'

/-- Space characters: the ASCII part of `\s` (argv and flag tokens contain no exotic spaces). -/
def spaceCharP (c : Char) : Bool :=
  c == ' ' || c == '\t' || c == '\n' || c == '\r' || c == '\x0b' || c == '\x0c'

/-- Longest run of non-newline characters (what `(.+)` can capture). -/
def takeNonNl (l : List Char) : List Char := l.takeWhile (fun c => !(c == '\n'))

/-- The `=["']?(.+)["']?` part of `OPTARG`, applied after the `=`:
an optional opening quote is consumed greedily, `(.+)` then captures the
longest non-newline run (with backtracking over the quote when `(.+)`
would otherwise be empty); a failing group leaves the value `undefined`. -/
def fvOf (r : List Char) : Option String :=
  match r with
  | [] => none
  | q :: rs =>
    if q == '"' || q == '\'' then
      match rs with
      | r1 :: _ => if !(r1 == '\n') then some (String.mk (takeNonNl rs))
                   else some (String.mk [q])
      | [] => some (String.mk [q])
    else if q == '\n' then none
    else some (String.mk (takeNonNl (q :: rs)))

/-- Match of `OPTARG` against a token: the captured flag (`--?[a-z_-]+`,
where `-` itself belongs to the class so the one-dash/two-dash choice
collapses) and the optional inline value. `none` when the token does not
look like an option. -/
def optargMatch (s : String) : Option (String × Option String) :=
  match s.data with
  | '-' :: c :: cs =>
    if flagCharP c then
      let run := List.takeWhile flagCharP (c :: cs)
      let rest := List.drop run.length (c :: cs)
      some (String.mk ('-' :: run),
        match rest with
        | '=' :: r => fvOf r
        | _ => none)
    else none
  | _ => none

/-- Embeds `Collector.isOpt` on a string: `CONSTANTS.REGEX.OPTARG.test(arg)`. -/
def isOptStr (s : String) : Bool := (optargMatch s).isSome

/-- Embeds `Collector.isOpt(arg)`: the source evaluates `arg || ''` first, so
`undefined` is tested as the empty string. -/
def isOpt (a : JStr) : Bool := isOptStr (a.getD "")

/-- Embeds `Collector._flagVal`: destructure the `OPTARG` match into
`[flag, flagVal]`; only ever called on tokens satisfying `isOpt`. -/
def flagVal (s : String) : String × Option String :=
  (optargMatch s).getD ("", none)

/-- Scanner state machine for the global `FLAGS` regex: `acc = some run`
means the scan is inside a match whose (reversed) class-character run so
far is `run`; when the run ends the match `-run` is emitted and scanning
resumes at the terminating character — which cannot be `-` (dash belongs
to the class), so it can simply be skipped. -/
def fsGo : Option (List Char) → List Char → List String
  | some acc, [] => [String.mk ('-' :: acc.reverse)]
  | none, [] => []
  | some acc, c :: cs =>
    if flagCharP c then fsGo (some (c :: acc)) cs
    else String.mk ('-' :: acc.reverse) :: fsGo none cs
  | none, '-' :: c :: cs =>
    if flagCharP c then fsGo (some [c]) cs
    else fsGo none (c :: cs)
  | none, _ :: cs => fsGo none cs

/-- All matches of the global `FLAGS` regex in a syntax string
(`String.prototype.match` with `/g`): scan left to right, on failure
advance one character, on success continue after the match. -/
def flagsScan (l : List Char) : List String := fsGo none l

/-- The `(?:[\s=]?([<[])(\w+)[>\]])?$` tail of `FLAG`, tried from a fixed
start position: returns `(valueRequired, valueName)` where
`valueRequired = (captured delimiter == '<')`. -/
def tryPlaceholder (r : List Char) : Option (Bool × String) :=
  match r with
  | d :: mid =>
    if d == '<' || d == '[' then
      match mid.getLast? with
      | some e =>
        if (e == '>' || e == ']') && !mid.dropLast.isEmpty
            && mid.dropLast.all wordCharP then
          some (d == '<', String.mk mid.dropLast)
        else none
      | none => none
    else none
  | [] => none

/-- The optional placeholder with its optional leading `[\s=]` character
(the regex prefers consuming that character; when the head is not in
`[\s=]` only the bare try can apply). -/
def parsePlaceholder (r : List Char) : Option (Bool × String) :=
  match r with
  | c :: rest =>
    if spaceCharP c || c == '=' then tryPlaceholder rest
    else tryPlaceholder r
  | [] => none

/-- One attempt of `FLAG` at a fixed start position; the match must reach
the end of the string.  Returns `none` on failure, `some none` for a flag
with no placeholder, `some (some (req, name))` for a flag with one.
Shrinking the greedy `[a-z_-]+` run can never help (the next character
would be a class character, which neither `[\s=]` nor `[<[]` accepts),
so the match is deterministic. -/
def matchFlagAt (l : List Char) : Option (Option (Bool × String)) :=
  match l with
  | '-' :: c :: cs =>
    if flagCharP c then
      let run := List.takeWhile flagCharP (c :: cs)
      let rest := List.drop run.length (c :: cs)
      if rest.isEmpty then some none
      else
        match parsePlaceholder rest with
        | some ph => some (some ph)
        | none => none
    else none
  | _ => none

/-- Models the search of `FLAG` over the syntax string: leftmost position at which
`matchFlagAt` succeeds. -/
def findFlag : List Char → Option (Option (Bool × String))
  | [] => none
  | c :: cs =>
    match matchFlagAt (c :: cs) with
    | some r => some r
    | none => findFlag cs

/-! ## `camelize` (`src/lib/string.ts`)

```js
str.replace(/^\W+/, '').replace(/(?:^\w|[A-Z]|\b\w|\s+)/g, (match, index) =>
  +match === 0 ? '' : (index === 0 ? match.toLowerCase() : match.toUpperCase())
).replace(/\W/g, '');
```
-/

/-- The middle `replace` of `camelize`, scanned character by character.
`prev = none` encodes offset 0 (where `^\w` applies and the kept character
is lowercased); elsewhere `[A-Z]` keeps an uppercase letter, `\b\w`
uppercases a word character following a non-word character, and `\s+`
(here handled one character at a time, which produces the same string) and
the digit `0` (`+match === 0`) are deleted. -/
def camelCore : Option Char → List Char → List Char
  | _, [] => []
  | none, c :: cs =>
    if wordCharP c then
      (if c == '0' then [] else [c.toLower]) ++ camelCore (some c) cs
    else if spaceCharP c then camelCore (some c) cs
    else c :: camelCore (some c) cs
  | some p, c :: cs =>
    if c.isUpper then c :: camelCore (some c) cs
    else if wordCharP c && !wordCharP p then
      (if c == '0' then [] else [c.toUpper]) ++ camelCore (some c) cs
    else if spaceCharP c then camelCore (some c) cs
    else c :: camelCore (some c) cs

/-- The function `camelize` from `src/lib/string.ts`. -/
def camelize (s : String) : String :=
  let t := s.data.dropWhile (fun c => !wordCharP c)
  String.mk ((camelCore none t).filter wordCharP)

/-! ## `Flag` (`src/collector.ts`, constructor) -/

/-- An option value handler (`fn`): the function form receives the new
value and the previously accumulated value.  (A `RegExp` handler replaces
the value by its match result, which is behaviourally a function of the
new value alone, so this type also covers it.) -/
abbrev Handler := JSVal → JSVal → JSVal

/-- The state of a constructed `Flag`: canonical `name`, `alias` list and
the `meta` fields `vName`/`vRequired`/`bool`/`neg`, plus the (possibly
derived) `defaultValue` and the optional handler. -/
structure FlagRec where
  name : String
  aliases : List String  -- the source field is `alias` (a Lean keyword)
  vName : Option String
  vRequired : Bool
  bool : Bool
  neg : Bool
  defaultValue : JSVal
  handler : Option Handler

/-- The `Flag` constructor: `none` models the `Invalid option syntax`
throw.  `f = syntax.match(FLAG)`, `alias = syntax.match(FLAGS)`,
`long = alias[alias.length - 1]`, `bool = !vName`,
`neg = bool && NEG.test(long)`, the name is the camelized long alias with
the `--no-` prefix stripped when negated, and a boolean flag's default is
`true` when negated, else `false`. -/
def flagParse (syn : String) (dv : JSVal) (fn : Option Handler) : Option FlagRec :=
  match findFlag syn.data with
  | none => none
  | some ph =>
    let list := flagsScan syn.data
    let vName : Option String := ph.map (·.2)
    let vRequired : Bool := ph.elim false (·.1)
    let long := list.getLastD ""
    let bool := vName.isNone
    let neg := bool && decide (long.data.take 5 = "--no-".data)
    some { name := camelize (if neg then String.mk (long.data.drop 5) else long)
           aliases := list
           vName := vName
           vRequired := vRequired
           bool := bool
           neg := neg
           defaultValue := if bool then (if neg then .bool true else .bool false) else dv
           handler := fn }

/-! ## The `Collector` data model

`_options` is the ordered list of registered option declarations (each
paired with its constructed `Flag`), `_args` the declared positional
arguments, `_commands` the subcommand map, `_flags` the alias-to-`Flag`
map (a JS `Map`, modelled as an update-prepended association list whose
lookup takes the most recent binding), and `unknowns` the
`_metadata.unknowns` entry coerced to its truthiness (`_meta('unknowns')`
is `undefined`, hence falsy, until `unknowns(allow)` is called). -/

/-- One entry of an `ICollectorOption` declaration: the flag syntax
string, the declared `default`, the optional value handler `fn`, and the
truth value of `opt.inherits !== false`. -/
structure OptDecl where
  flag : String
  dflt : JSVal
  fn : Option Handler
  inherits : Bool

/-- One `ICommandArgument` declaration (`optional` and `multi` are the
truthiness of the corresponding fields). -/
structure ArgDef where
  name : String
  optional : Bool
  multi : Bool

/-- A `Collector` node. -/
inductive Collector where
  | mk (opts : List (OptDecl × FlagRec)) (argDefs : List ArgDef)
       (cmds : List (String × Collector)) (flags : List (String × FlagRec))
       (unknowns : Bool)

def Collector.opts : Collector → List (OptDecl × FlagRec)
  | .mk o _ _ _ _ => o

def Collector.argDefs : Collector → List ArgDef
  | .mk _ a _ _ _ => a

def Collector.cmds : Collector → List (String × Collector)
  | .mk _ _ c _ _ => c

def Collector.flags : Collector → List (String × FlagRec)
  | .mk _ _ _ f _ => f

def Collector.unknowns : Collector → Bool
  | .mk _ _ _ _ u => u

/-- Lookup in the `_flags` map (`Map.prototype.get`). -/
def lookupFlag (m : List (String × FlagRec)) (a : String) : Option FlagRec :=
  (m.find? (fun e => e.1 == a)).map (·.2)

/-- Register every alias of a flag in the `_flags` map
(`flag.alias.forEach(a => _flags.set(a, flag))`). -/
def setFlags (as : List String) (fr : FlagRec) (m : List (String × FlagRec)) :
    List (String × FlagRec) :=
  as.foldl (fun m a => (a, fr) :: m) m

/-- The dedupe step of `Collector.option`:
`_options.forEach((o, i) => o._flag.name === flag.name && _options.splice(i, 1))`.
A `forEach` that splices the visited array skips the element following a
removal, which is reproduced here. -/
def dedupeByName (nm : String) : List (OptDecl × FlagRec) → List (OptDecl × FlagRec)
  | [] => []
  | e :: es =>
    if e.2.name == nm then
      match es with
      | [] => []
      | f :: fs => f :: dedupeByName nm fs
    else e :: dedupeByName nm es

/-- Register one option declaration on a collector (`Collector.option`
for a single declaration): construct the `Flag` (throwing on invalid
syntax), extend the alias map, dedupe `_options` by canonical name and
append the new entry. -/
def Collector.option1 (c : Collector) (d : OptDecl) : Except String Collector :=
  match flagParse d.flag d.dflt d.fn with
  | none => .error ("Invalid option syntax " ++ d.flag)
  | some fr =>
    .ok (.mk (dedupeByName fr.name c.opts ++ [(d, fr)]) c.argDefs c.cmds
      (setFlags fr.aliases fr c.flags) c.unknowns)

/-- Register a list of declarations left to right (`option(...opts)`). -/
def Collector.optionMany (c : Collector) (ds : List OptDecl) : Except String Collector :=
  ds.foldlM Collector.option1 c

/-- Embeds `Collector._inherit(options)`: clear the alias map, empty the
own-options list, then re-register first the parent options whose
`inherits` is not `false` and then the own options (so own declarations
occupy the later positions and their registration dedupes away an
inherited entry of the same canonical name). -/
def inherit (pOpts : List (OptDecl × FlagRec)) (c : Collector) : Except String Collector :=
  let base := Collector.mk [] c.argDefs c.cmds [] c.unknowns
  match base.optionMany ((pOpts.filter (fun e => e.1.inherits)).map (·.1)) with
  | .error e => .error e
  | .ok c1 => c1.optionMany (c.opts.map (·.1))

/-- Specification-side description of a sequence of successful
registrations: each already-parsed `(declaration, Flag)` pair is
appended after deduping its canonical name, with all aliases entered in
the flag map (this is what `option(...)` does when every syntax
parses; used to state the inheritance law). -/
def regPairs (c : Collector) (ps : List (OptDecl × FlagRec)) : Collector :=
  ps.foldl
    (fun c e => Collector.mk (dedupeByName e.2.name c.opts ++ [e]) c.argDefs c.cmds
      (setFlags e.2.aliases e.2 c.flags) c.unknowns)
    c

/-! ## `optRight` and `argShift` -/

/-- The value-consumption test of `optRight`'s loop: the token matched
`OPTARG` with no inline value and its flag is registered as non-boolean
(`!flagVal && o && !o.meta.bool`). -/
def consumesVal (m : List (String × FlagRec)) (t : JStr) : Bool :=
  match t with
  | some s =>
    match optargMatch s with
    | some (fl, fv) =>
      fv.isNone && (match lookupFlag m fl with
                    | some fr => !fr.bool
                    | none => false)
    | none => false
  | none => false

/-- The loop of `Collector.optRight` over the working copy of argv,
returning the `arg` and `opt` accumulators.  A consuming option token
additionally shifts the next element onto `opt` — unconditionally, and
`shift` on an empty remainder pushes `undefined` (`none`). -/
def orGo (m : List (String × FlagRec)) : List JStr → List JStr × List JStr
  | [] => ([], [])
  | next :: rest =>
    if isOpt next then
      if consumesVal m next then
        match rest with
        | [] => ([], [next, none])
        | v :: rest' =>
          ((orGo m rest').1, next :: v :: (orGo m rest').2)
      else
        ((orGo m rest).1, next :: (orGo m rest).2)
    else
      (next :: (orGo m rest).1, (orGo m rest).2)

/-- Embeds `Collector.optRight(args)`: `[...arg, ...opt]`. -/
def optRight (m : List (String × FlagRec)) (args : List JStr) : List JStr :=
  (orGo m args).1 ++ (orGo m args).2

/-- Embeds `Collector.argShift(args)`: the prefix of `optRight(args)` up
to the first token satisfying `isOpt` (the whole list when there is
none; `~opt` is falsy exactly for `findIndex` result `-1`). -/
def argShift (m : List (String × FlagRec)) (args : List JStr) : List JStr :=
  let arg := optRight m args
  arg.take (match arg.findIdx? isOpt with
            | some i => i
            | none => arg.length)

/-- Whether the `optRight` scan reaches a value-consuming option token as
the last remaining element, i.e. performs `all.shift()` on the empty
remainder and appends `undefined`. -/
def dangling (m : List (String × FlagRec)) : List JStr → Bool
  | [] => false
  | next :: rest =>
    if isOpt next && consumesVal m next then
      match rest with
      | [] => true
      | _ :: rest' => dangling m rest'
    else dangling m rest

/-! ## The parse reduction (`resolve` / `_receive` / `_optVal` /
`_defaults` / `_verify` / `_sliceInstance`) -/

/-- The mutable `_result` accumulator `{options, args}`.  The `options`
object is modelled as an update-prepended association list (an object
spread `{...options, ...{[name]: val}}` lets the new key win, which is a
prepend under first-match lookup). -/
structure PResult where
  options : List (String × JSVal)
  args : List JSVal

/-- Property lookup on the modelled options object: `undefined` both for
an absent key and for a key explicitly set to `undefined`. -/
def getOptVal (opts : List (String × JSVal)) (n : String) : JSVal :=
  ((opts.find? (fun e => e.1 == n)).map (·.2)).getD ( .undef : JSVal)

/-- Application of an option's `valueHandler` after the value was
resolved (`if (!meta.bool && opt.handler) { val = opt.handler(val,
this._result.options[name]) }`); only reached on non-boolean flags. -/
def applyHandler (fr : FlagRec) (v : JSVal) (prevOpts : List (String × JSVal)) : JSVal :=
  match fr.handler with
  | some h => h v (getOptVal prevOpts fr.name)
  | none => v

/-- Embeds `Collector._optVal(current, rest)`.  Returns whether
`rest.shift()` was executed together with either the thrown message or
the `{[name]: val}` pair.  The shift happens before the
required-value check, so a throw can still have consumed the next
token. -/
def optVal (cm : Collector) (prevOpts : List (String × JSVal)) (cur : String)
    (rest : List JStr) : Bool × Except String (String × JSVal) :=
  match optargMatch cur with
  | none => (false, .error "TypeError")
  | some (fl, fv) =>
    match lookupFlag cm.flags fl with
    | none =>
      if !cm.unknowns then (false, .error ("Unknown option: " ++ fl))
      else (false, .ok (camelize fl, jsOr (jstrv fv) (.bool true)))
    | some fr =>
      if fr.bool then (false, .ok (fr.name, .bool (!fr.neg)))
      else
        match fv with
        | some v => (false, .ok (fr.name, applyHandler fr (.str v) prevOpts))
        | none =>
          let rc : JSVal × Bool :=
            match rest with
            | r :: _ => if isOpt r then (fr.defaultValue, false) else (jstrv r, true)
            | [] => (.undef, true)
          if !truthy rc.1 && fr.vRequired then
            (rc.2, .error ("Option '" ++ fr.name ++ "' requires a value: '"
                           ++ fr.vName.getD "" ++ "'"))
          else (rc.2, .ok (fr.name, applyHandler fr rc.1 prevOpts))

/-- JavaScript sparse-array read `args[i]`. -/
def getSlot (l : List JSVal) (i : Nat) : JSVal := l.getD i ( .undef : JSVal)

/-- JavaScript sparse-array write `args[i] = v` (holes become
`undefined`). -/
def setSlot (l : List JSVal) (i : Nat) (v : JSVal) : List JSVal :=
  if i < l.length then l.set i v
  else l ++ List.replicate (i - l.length) .undef ++ [v]

/-- The positional branch of `Collector._receive`: the slot definition is
`_args[Math.min(args.length, _args.length - 1)]` (with `-1` reading as
`undefined` when no arguments are declared); a `multi` definition pushes
onto the array at the last declared slot, creating it if its current
value is falsy; pushing onto a truthy non-array raises a `TypeError`. -/
def pushArg (defs : List ArgDef) (args : List JSVal) (cur : JStr) :
    Except String (List JSVal) :=
  if defs.isEmpty then .ok (args ++ [jstrv cur])
  else
    match defs.get? (min args.length (defs.length - 1)) with
    | some d =>
      if d.multi then
        let slot := defs.length - 1
        let base := if truthy (getSlot args slot) then getSlot args slot else .list []
        match base with
        | .list xs => .ok (setSlot args slot (.list (xs ++ [jstrv cur])))
        | _ => .error "TypeError: push is not a function"
      else .ok (args ++ [jstrv cur])
    | none => .ok (args ++ [jstrv cur])

/-- The positional-only restriction of the reduction loop: fold
`pushArg` over the tokens (used to state the argument-filling property;
on all-positional argv the full reduction agrees with it). -/
def posFold (defs : List ArgDef) (args : List JSVal) : List JStr → Except String (List JSVal)
  | [] => .ok args
  | t :: ts =>
    match pushArg defs args t with
    | .error e => .error e
    | .ok args' => posFold defs args' ts

/-- The `while (list.length) { const next = list.shift();
collector._receive(next, list); }` reduction of `resolve`. -/
def receiveAll (cm : Collector) : PResult → List JStr → Except String PResult
  | st, [] => .ok st
  | st, cur :: rest =>
    if isOpt cur then
      match optVal cm st.options (cur.getD "") rest with
      | (_, .error e) => .error e
      | (consumed, .ok (n, v)) =>
        match rest with
        | [] => .ok { st with options := (n, v) :: st.options }
        | r :: rest' =>
          if consumed then
            receiveAll cm { st with options := (n, v) :: st.options } rest'
          else
            receiveAll cm { st with options := (n, v) :: st.options } (r :: rest')
    else
      match pushArg cm.argDefs st.args cur with
      | .error e => .error e
      | .ok args' => receiveAll cm { st with args := args' } rest

/-- Embeds `Collector._defaults`: for every registered option whose
canonical name is still `undefined` in the result, store the flag's
default value. -/
def applyDefaults (cm : Collector) (st : PResult) : PResult :=
  { st with
    options := cm.opts.foldl
      (fun acc e =>
        if (getOptVal acc e.2.name).isUndef then (e.2.name, e.2.defaultValue) :: acc
        else acc)
      st.options }

/-- First declared argument failing `!a.optional && !args[i]`, if any. -/
def firstMissing (defs : List ArgDef) (args : List JSVal) (i : Nat) : Option ArgDef :=
  match defs with
  | [] => none
  | a :: ds =>
    if !a.optional && !truthy (getSlot args i) then some a
    else firstMissing ds args (i + 1)

/-- Embeds `Collector._verify`: unless the `help` option is truthy, throw
`missing required argument: name` for the first non-optional declared
argument whose received value is falsy. -/
def verify (cm : Collector) (st : PResult) : Except String Unit :=
  if truthy (getOptVal st.options "help") then .ok ()
  else
    match firstMissing cm.argDefs st.args 0 with
    | some a => .error ("missing required argument: " ++ a.name)
    | none => .ok ()

/-- Subcommand lookup (`_commands.get(current)`). -/
def lookupCmd (cs : List (String × Collector)) (s : String) : Option Collector :=
  (cs.find? (fun e => e.1 == s)).map (·.2)

/-- The `reduce` of `Collector._sliceInstance`: walk every token, descend
into a matching subcommand wherever one matches (recording `start` at the
first match and counting matches in `len`), and let each matched child
inherit the inheritable options of the node it was reached from. -/
def sliceGo : Collector → List JStr → Nat → Option Nat → Nat →
    Except String (Collector × Option Nat × Nat)
  | cur, [], _, start, len => .ok (cur, start, len)
  | cur, t :: ts, i, start, len =>
    match t with
    | some s =>
      match lookupCmd cur.cmds s with
      | some child =>
        match inherit cur.opts child with
        | .error e => .error e
        | .ok child' => sliceGo child' ts (i + 1) (some (start.getD i)) (len + 1)
      | none => sliceGo cur ts (i + 1) start len
    | none => sliceGo cur ts (i + 1) start len

/-- JavaScript `arr.splice(start, len)` (the retained elements). -/
def splice (l : List α) (start len : Nat) : List α :=
  l.take start ++ l.drop (start + len)

/-- Embeds `Collector._sliceInstance(args)`: resolve the target collector
and remove the matched command-name span from the working list
(`if (len) args.splice(start, len)`). -/
def sliceInstance (c : Collector) (argv : List JStr) :
    Except String (Collector × List JStr) :=
  match sliceGo c argv 0 none 0 with
  | .error e => .error e
  | .ok (cm, start, len) =>
    .ok (cm, if len != 0 then splice argv (start.getD 0) len else argv)

/-- The resolved `ICollectorResult` `{collector, argv, options, args}`. -/
structure RRes where
  collector : Collector
  argv : List JStr
  options : List (String × JSVal)
  args : List JSVal

/-- Embeds `Collector.resolve(argv)` called on a root collector (a
non-root call only delegates to the root): copy argv, slice the command
path, reduce the remaining tokens, then `result()` = defaults, verify and
the accumulated `_result` (initially `{options: {}, args: []}`).  A
throw anywhere inside the promise executor rejects the promise, modelled
by `Except.error`. -/
def resolveRun (c : Collector) (argv : List JStr) : Except String RRes :=
  match sliceInstance c argv with
  | .error e => .error e
  | .ok (cm, list) =>
    match receiveAll cm ⟨[], []⟩ list with
    | .error e => .error e
    | .ok st =>
      let std := applyDefaults cm st
      match verify cm std with
      | .error e => .error e
      | .ok _ => .ok ⟨cm, list, std.options, std.args⟩

/-! ## Specification predicates used by the claims -/

/-- The list `c` is a stable merge of `a` and `b`: every element of `c`
is drawn from exactly one of the two, each preserving its relative
order.  `optRight` being a stable partition of argv means exactly
`Interleave A B argv` with output `A ++ B`. -/
inductive Interleave : List JStr → List JStr → List JStr → Prop
  | nil : Interleave [] [] []
  | left (x : JStr) {a b c : List JStr} :
      Interleave a b c → Interleave (x :: a) b (x :: c)
  | right (x : JStr) {a b c : List JStr} :
      Interleave a b c → Interleave a (x :: b) (x :: c)

/-- Shape of the `opt` accumulator produced by `optRight`'s loop: a
sequence of blocks, each a non-consuming option token alone or a
consuming option token followed by exactly one (arbitrary) element. -/
inductive OptBlocks (m : List (String × FlagRec)) : List JStr → Prop
  | nil : OptBlocks m []
  | single (f : JStr) {o : List JStr} :
      isOpt f = true → consumesVal m f = false → OptBlocks m o →
      OptBlocks m (f :: o)
  | pair (f v : JStr) {o : List JStr} :
      isOpt f = true → consumesVal m f = true → OptBlocks m o →
      OptBlocks m (f :: v :: o)

/-- An argv token supplies the given flag when its `OPTARG` flag portion
is one of the flag's aliases. -/
def suppliedTok (fr : FlagRec) (t : JStr) : Bool :=
  match t with
  | some s =>
    match optargMatch s with
    | some (fl, _) => fr.aliases.contains fl
    | none => false
  | none => false

/-! ## Concrete instances used in counterexamples and witnesses -/

/-- The `Flag` of syntax `-f, --file <path>`. -/
def frFile : FlagRec :=
  ⟨"file", ["-f", "--file"], some "path", true, false, false, .undef, none⟩

/-- A collector that registered only `-f, --file <path>`. -/
def cmFile : Collector :=
  Collector.mk [(⟨"-f, --file <path>", .undef, none, true⟩, frFile)] [] []
    [("--file", frFile), ("-f", frFile)] false

/-- The `Flag` of syntax `-f <v>`. -/
def frF : FlagRec := ⟨"f", ["-f"], some "v", true, false, false, .undef, none⟩

/-- The `Flag` of syntax `-g <v>`. -/
def frG : FlagRec := ⟨"g", ["-g"], some "v", true, false, false, .undef, none⟩

/-- A `_flags` map with the two value-taking flags `-f` and `-g`. -/
def mFG : List (String × FlagRec) := [("-f", frF), ("-g", frG)]

/-- The `Flag` of syntax `--no-wammies`. -/
def frWammies : FlagRec :=
  ⟨"wammies", ["--no-wammies"], none, false, true, true, .bool true, none⟩

/-- A collector that registered only `--no-wammies`. -/
def cWammies : Collector :=
  Collector.mk [(⟨"--no-wammies", .undef, none, true⟩, frWammies)] [] []
    [("--no-wammies", frWammies)] false

/-- The `Flag` of syntax `--verbose`. -/
def frVerbose : FlagRec :=
  ⟨"verbose", ["--verbose"], none, false, true, false, .bool false, none⟩

/-- A child collector with no declarations of its own. -/
def cChild : Collector := Collector.mk [] [] [] [] false

/-- A parent collector with option `--verbose` and subcommand `child`. -/
def cParent : Collector :=
  Collector.mk [(⟨"--verbose", .undef, none, true⟩, frVerbose)] []
    [("child", cChild)] [("--verbose", frVerbose)] false

/-- A collector declaring one required variadic argument `files`. -/
def cFiles : Collector := Collector.mk [] [⟨"files", false, true⟩] [] [] false

/-- The `Flag` of syntax `-h, --help`. -/
def frHelp : FlagRec :=
  ⟨"help", ["-h", "--help"], none, false, true, false, .bool false, none⟩

/-- A collector with the standard help option and one required argument
`foo`. -/
def cHelpFoo : Collector :=
  Collector.mk [(⟨"-h, --help", .undef, none, true⟩, frHelp)] [⟨"foo", false, false⟩]
    [] [("--help", frHelp), ("-h", frHelp)] false

/-- A bare collector that rejects unknown options. -/
def cNone : Collector := Collector.mk [] [] [] [] false

/-- A bare collector that allows unknown options. -/
def cUnk : Collector := Collector.mk [] [] [] [] true

/-- The `Flag` of syntax `-c, --cheese <type>`. -/
def frCheese : FlagRec :=
  ⟨"cheese", ["-c", "--cheese"], some "type", true, false, false, .undef, none⟩

/-! ## Array-mutation model

To settle the frame claim about `resolve`, `optRight` and `argShift`
(they never mutate the argv array handed to them), the same source
functions are embedded once more in an explicit store-passing style: a
heap of JavaScript arrays addressed by references, with `[...a]`
allocating a copy and `shift`/`push`/`splice` writing through the
reference they are invoked on. -/

abbrev Ref := Nat

abbrev Heap := List (List JStr)

/-- Read the array behind a reference. -/
def hRead (h : Heap) (r : Ref) : List JStr := (h.get? r).getD []

/-- Overwrite the array behind a reference. -/
def hWrite (h : Heap) (r : Ref) (v : List JStr) : Heap := h.set r v

/-- Allocate a fresh array. -/
def hAlloc (h : Heap) (v : List JStr) : Heap × Ref := (h ++ [v], h.length)

/-- The `while (all.length)` loop of `optRight` on the heap: shift from
`all`, push positionals onto `arg` and option tokens (plus the token
shifted as their value — `undefined` when `all` is already empty) onto
`opt`.  One unit of fuel per iteration; the initial length of `all`
bounds the iteration count. -/
def orLoop (m : List (String × FlagRec)) :
    Nat → Ref → Ref → Ref → Heap → Heap
  | 0, _, _, _, h => h
  | fuel + 1, allR, argR, optR, h =>
    match hRead h allR with
    | [] => h
    | next :: rest =>
      let h1 := hWrite h allR rest
      if isOpt next then
        let h2 := hWrite h1 optR (hRead h1 optR ++ [next])
        let h3 :=
          if consumesVal m next then
            match hRead h2 allR with
            | [] => hWrite h2 optR (hRead h2 optR ++ [(none : JStr)])
            | v :: vr =>
              let h' := hWrite h2 allR vr
              hWrite h' optR (hRead h' optR ++ [v])
          else h2
        orLoop m fuel allR argR optR h3
      else
        orLoop m fuel allR argR optR (hWrite h1 argR (hRead h1 argR ++ [next]))

/-- Embeds `Collector.optRight(args)` on the heap: copy the argument
array, run the loop, return `[...arg, ...opt]` (a fresh array, here the
returned value). -/
def optRightH (m : List (String × FlagRec)) (r : Ref) (h : Heap) :
    List JStr × Heap :=
  let p1 := hAlloc h (hRead h r)
  let p2 := hAlloc p1.1 []
  let p3 := hAlloc p2.1 []
  let h4 := orLoop m (hRead p3.1 p1.2).length p1.2 p2.2 p3.2 p3.1
  (hRead h4 p2.2 ++ hRead h4 p3.2, h4)

/-- Embeds `Collector.argShift(args)` on the heap: `optRight`, then a
pure `findIndex`/`slice` on the returned array. -/
def argShiftH (m : List (String × FlagRec)) (r : Ref) (h : Heap) :
    List JStr × Heap :=
  let p := optRightH m r h
  (p.1.take (match p.1.findIdx? isOpt with
             | some i => i
             | none => p.1.length), p.2)

/-- The `while (list.length)` reduction of `resolve` on the heap:
`list.shift()`, then `_receive(next, list)`, whose option branch may
`shift` the list once more from inside `_optVal` (`rest.shift()` runs
before the required-value check, so it happens even on a throwing
iteration). -/
def rcvLoop (cm : Collector) :
    Nat → Ref → PResult → Heap → Except String PResult × Heap
  | 0, _, st, h => (.ok st, h)
  | fuel + 1, listR, st, h =>
    match hRead h listR with
    | [] => (.ok st, h)
    | next :: rest =>
      let h1 := hWrite h listR rest
      if isOpt next then
        let p := optVal cm st.options (next.getD "") (hRead h1 listR)
        let h2 := if p.1 then hWrite h1 listR (hRead h1 listR).tail else h1
        match p.2 with
        | .error e => (.error e, h2)
        | .ok nv =>
          rcvLoop cm fuel listR { st with options := nv :: st.options } h2
      else
        match pushArg cm.argDefs st.args next with
        | .error e => (.error e, h1)
        | .ok args' => rcvLoop cm fuel listR { st with args := args' } h1

/-- The tail of `resolve` after `_sliceInstance` has spliced the list:
`iargv` copies the (possibly spliced) `list`, the reduce loop consumes
`list`, and `result()` finishes with defaults and verification. -/
def resolveFinishH (cm : Collector) (listR : Ref) (h2 : Heap) :
    Except String RRes × Heap :=
  let p3 := hAlloc h2 (hRead h2 listR)
  let iargvR := p3.2
  match rcvLoop cm (hRead p3.1 listR).length listR ⟨[], []⟩ p3.1 with
  | (.error e, h4) => (.error e, h4)
  | (.ok st, h4) =>
    let std := applyDefaults cm st
    match verify cm std with
    | .error e => (.error e, h4)
    | .ok _ => (.ok ⟨cm, hRead h4 iargvR, std.options, std.args⟩, h4)

/-- Embeds `Collector.resolve(argv)` on the heap: copy argv into `list`,
`_sliceInstance` reads `list` and splices it in place, then the copy,
reduce and finish steps of `resolveFinishH`. -/
def resolveH (c : Collector) (r : Ref) (h : Heap) : Except String RRes × Heap :=
  let p1 := hAlloc h (hRead h r)
  let listR := p1.2
  match sliceGo c (hRead p1.1 listR) 0 none 0 with
  | .error e => (.error e, p1.1)
  | .ok (cm, start, len) =>
    resolveFinishH cm listR
      (if len != 0 then
        hWrite p1.1 listR (splice (hRead p1.1 listR) (start.getD 0) len)
      else p1.1)

/-! # Theorems -/

/-! ## Sanity: the concrete collectors above are exactly what
`Collector.option` registration produces -/

theorem cmFile_built :
    (Collector.mk [] [] [] [] false).option1 ⟨"-f, --file <path>", .undef, none, true⟩ =
      .ok cmFile := rfl

theorem cWammies_built :
    (Collector.mk [] [] [] [] false).option1 ⟨"--no-wammies", .undef, none, true⟩ =
      .ok cWammies := rfl

theorem cParent_built :
    (Collector.mk [] [] [("child", cChild)] [] false).option1
      ⟨"--verbose", .undef, none, true⟩ = .ok cParent := rfl

theorem cHelpFoo_built :
    (Collector.mk [] [⟨"foo", false, false⟩] [] [] false).option1
      ⟨"-h, --help", .undef, none, true⟩ = .ok cHelpFoo := rfl

theorem frF_built : flagParse "-f <v>" .undef none = some frF := rfl

theorem frG_built : flagParse "-g <v>" .undef none = some frG := rfl

theorem frCheese_built : flagParse "-c, --cheese <type>" .undef none = some frCheese := rfl

/-! ## C2 — canonical flag name -/

/-- C2 (amended): for every syntax string accepted by the `Flag`
constructor, the canonical name is the camelization of the **last** alias
matched in the syntax (with the `--no-` prefix stripped when the flag is
negated) — not of the longest alias. -/
theorem C2_name_is_camelized_last_alias :
    ∀ (syn : String) (dv : JSVal) (fn : Option Handler) (fr : FlagRec),
      flagParse syn dv fn = some fr →
      fr.name = camelize (if fr.neg then
          String.mk (((flagsScan syn.data).getLastD "").data.drop 5)
        else (flagsScan syn.data).getLastD "") := by
  intro syn dv fn fr h
  unfold flagParse at h
  cases hf : findFlag syn.data with
  | none => rw [hf] at h; exact absurd h (by simp)
  | some ph =>
    rw [hf] at h
    simp only [Option.some.injEq] at h
    subst h
    rfl

/-- C2 counterexample: the syntax `--long, -s` is accepted by the `Flag`
constructor, its longest alias is `--long` (camelizing to `long`), yet
the canonical name is `s`, the camelization of the *last* alias `-s`.
The claim that the name equals the camelCased longest alias is false. -/
theorem C2_counterexample :
    flagsScan "--long, -s".data = ["--long", "-s"] ∧
    (∀ a ∈ flagsScan "--long, -s".data, a.length ≤ "--long".length) ∧
    camelize "--long" = "long" ∧
    (flagParse "--long, -s" .undef none).map FlagRec.name = some "s" ∧
    (flagParse "--long, -s" .undef none).map FlagRec.name ≠ some (camelize "--long") := by
  refine ⟨rfl, by decide, rfl, rfl, by decide⟩

/-- C2 witness: the amended theorem applied to `-c, --cheese <type>`. -/
theorem C2_witness :
    flagParse "-c, --cheese <type>" .undef none = some frCheese ∧
    frCheese.name = camelize (if frCheese.neg then
        String.mk (((flagsScan "-c, --cheese <type>".data).getLastD "").data.drop 5)
      else (flagsScan "-c, --cheese <type>".data).getLastD "") :=
  ⟨rfl, C2_name_is_camelized_last_alias "-c, --cheese <type>" .undef none frCheese rfl⟩

/-! ## C5 — unknown options -/

/-- C5 (amended): a flag token whose alias is not registered fails the
parse with `Unknown option: <flag>` when unknowns are disallowed; when
allowed, the camelCased flag name is set to the inline value when one is
present (and truthy), and to boolean `true` otherwise — in particular
`resolve(['--bogus'])` yields `options.bogus === true`. -/
theorem C5_unknown_option :
    (∀ (cm : Collector) (prev : List (String × JSVal)) (cur : String)
       (rest : List JStr) (fl : String) (fv : Option String),
       optargMatch cur = some (fl, fv) → lookupFlag cm.flags fl = none →
       (cm.unknowns = false →
          optVal cm prev cur rest = (false, .error ("Unknown option: " ++ fl))) ∧
       (cm.unknowns = true →
          optVal cm prev cur rest = (false, .ok (camelize fl, jsOr (jstrv fv) (.bool true))))) ∧
    resolveRun cNone [some "--bogus"] = .error "Unknown option: --bogus" ∧
    (∃ r, resolveRun cUnk [some "--bogus"] = .ok r ∧
       getOptVal r.options "bogus" = .bool true) := by
  refine ⟨?_, rfl, ⟨_, rfl, rfl⟩⟩
  intro cm prev cur rest fl fv hm hl
  constructor
  · intro hu; simp [optVal, hm, hl, hu]
  · intro hu; simp [optVal, hm, hl, hu]

/-- C5 counterexample: with unknowns allowed, the unknown flag token
`--bogus=5` carries an inline value, and the options result binds
`bogus` to the string `"5"`, not to the boolean `true` the claim
promises for every unregistered flag token. -/
theorem C5_counterexample :
    ∃ r, resolveRun cUnk [some "--bogus=5"] = .ok r ∧
      getOptVal r.options "bogus" = .str "5" ∧
      getOptVal r.options "bogus" ≠ .bool true :=
  ⟨_, rfl, rfl, fun h => JSVal.noConfusion h⟩

/-- C5 witness: the amended theorem applied to the unregistered token
`--nope` on a collector that rejects unknowns. -/
theorem C5_witness :
    optVal cNone [] "--nope" [] = (false, .error ("Unknown option: " ++ "--nope")) :=
  (C5_unknown_option.1 cNone [] "--nope" [] "--nope" none rfl rfl).1 rfl

/-! ## C7 — value consumption for non-boolean flags -/

/-- C7 (amended): for a registered non-boolean flag token with no inline
value, the next argv token is consumed as the value unless it looks like
an option (then the flag's default is used; when no next token exists the
value is `undefined`), and the parse fails with an error naming the
option exactly when the value was required and the value so obtained is
falsy (no token, empty-string token, or falsy default) — not exactly
when "no value was obtained". -/
theorem C7_optVal_value_consumption :
    ∀ (cm : Collector) (prev : List (String × JSVal)) (cur : String)
      (rest : List JStr) (fl : String) (fr : FlagRec) (raw : JSVal) (consumed : Bool),
      optargMatch cur = some (fl, none) → lookupFlag cm.flags fl = some fr →
      fr.bool = false →
      raw = (match rest with
             | r :: _ => if isOpt r then fr.defaultValue else jstrv r
             | [] => .undef) →
      consumed = (match rest with
                  | r :: _ => !isOpt r
                  | [] => true) →
      (optVal cm prev cur rest).1 = consumed ∧
      (fr.vRequired = true → truthy raw = false →
        (optVal cm prev cur rest).2 =
          .error ("Option '" ++ fr.name ++ "' requires a value: '"
                  ++ fr.vName.getD "" ++ "'")) ∧
      (¬(fr.vRequired = true ∧ truthy raw = false) →
        (optVal cm prev cur rest).2 = .ok (fr.name, applyHandler fr raw prev)) := by
  intro cm prev cur rest fl fr raw consumed hm hl hb hraw hcons
  cases rest with
  | nil =>
    subst hraw hcons
    by_cases hreq : fr.vRequired = true
    · exact ⟨by simp [optVal, hm, hl, hb, hreq, truthy],
             fun _ _ => by simp [optVal, hm, hl, hb, hreq, truthy],
             fun hn => absurd ⟨hreq, rfl⟩ hn⟩
    · simp only [Bool.not_eq_true] at hreq
      exact ⟨by simp [optVal, hm, hl, hb, hreq, truthy],
             fun h1 _ => absurd h1 (by simp [hreq]),
             fun _ => by simp [optVal, hm, hl, hb, hreq, truthy]⟩
  | cons r rs =>
    subst hraw hcons
    by_cases ho : isOpt r = true
    · by_cases hfal : truthy fr.defaultValue = false
      · by_cases hreq : fr.vRequired = true
        · exact ⟨by simp [optVal, hm, hl, hb, ho, hreq, hfal],
                 fun _ _ => by simp [optVal, hm, hl, hb, ho, hreq, hfal],
                 fun hn => absurd ⟨hreq, by simp [ho, hfal]⟩ hn⟩
        · simp only [Bool.not_eq_true] at hreq
          exact ⟨by simp [optVal, hm, hl, hb, ho, hreq, hfal],
                 fun h1 _ => absurd h1 (by simp [hreq]),
                 fun _ => by simp [optVal, hm, hl, hb, ho, hreq, hfal]⟩
      · simp only [Bool.not_eq_false] at hfal
        exact ⟨by simp [optVal, hm, hl, hb, ho, hfal],
               fun _ h2 => absurd h2 (by simp [ho, hfal]),
               fun _ => by simp [optVal, hm, hl, hb, ho, hfal]⟩
    · simp only [Bool.not_eq_true] at ho
      by_cases hfal : truthy (jstrv r) = false
      · by_cases hreq : fr.vRequired = true
        · exact ⟨by simp [optVal, hm, hl, hb, ho, hreq, hfal],
                 fun _ _ => by simp [optVal, hm, hl, hb, ho, hreq, hfal],
                 fun hn => absurd ⟨hreq, by simp [ho, hfal]⟩ hn⟩
        · simp only [Bool.not_eq_true] at hreq
          exact ⟨by simp [optVal, hm, hl, hb, ho, hreq, hfal],
                 fun h1 _ => absurd h1 (by simp [hreq]),
                 fun _ => by simp [optVal, hm, hl, hb, ho, hreq, hfal]⟩
      · simp only [Bool.not_eq_false] at hfal
        exact ⟨by simp [optVal, hm, hl, hb, ho, hfal],
               fun _ h2 => absurd h2 (by simp [ho, hfal]),
               fun _ => by simp [optVal, hm, hl, hb, ho, hfal]⟩

/-- C7 counterexample: the next token `""` does not look like an option,
so (per the claim) it is consumed as the value — a value *is* obtained —
yet the parse fails with the missing-value error, because the code tests
falsiness of the obtained value rather than whether one was obtained. -/
theorem C7_counterexample :
    isOptStr "" = false ∧
    optVal cmFile [] "--file" [some ""] =
      (true, .error "Option 'file' requires a value: 'path'") := ⟨rfl, rfl⟩

/-- C7 witness: the amended theorem applied to `--file x` — the next
token `x` is consumed and becomes the value. -/
theorem C7_witness :
    (optVal cmFile [] "--file" [some "x"]).1 = true ∧
    (optVal cmFile [] "--file" [some "x"]).2 = .ok ("file", .str "x") := by
  have h := C7_optVal_value_consumption cmFile [] "--file" [some "x"] "--file" frFile
    (.str "x") true rfl rfl rfl rfl rfl
  exact ⟨h.1, h.2.2 (fun hc => absurd hc.2 (by decide))⟩

/-! ## Structure of `optRight` (lemmas shared by C1 and C9) -/

theorem Interleave.length_eq {a b c : List JStr} (h : Interleave a b c) :
    a.length + b.length = c.length := by
  induction h with
  | nil => rfl
  | left x _ ih => simp only [List.length_cons]; omega
  | right x _ ih => simp only [List.length_cons]; omega

/-- Unfolding equations for `orGo` (the generated equations split on the
first two list cells, so spell out the four reachable shapes). -/
theorem orGo_notopt (m : List (String × FlagRec)) {next : JStr}
    (h1 : isOpt next = false) (rest : List JStr) :
    orGo m (next :: rest) = (next :: (orGo m rest).1, (orGo m rest).2) := by
  rw [orGo.eq_def]
  simp [h1]

theorem orGo_noconsume (m : List (String × FlagRec)) {next : JStr}
    (h1 : isOpt next = true) (h2 : consumesVal m next = false) (rest : List JStr) :
    orGo m (next :: rest) = ((orGo m rest).1, next :: (orGo m rest).2) := by
  rw [orGo.eq_def]
  simp [h1, h2]

theorem orGo_consume_nil (m : List (String × FlagRec)) {next : JStr}
    (h1 : isOpt next = true) (h2 : consumesVal m next = true) :
    orGo m [next] = ([], [next, none]) := by
  rw [orGo.eq_def]
  simp [h1, h2]

theorem orGo_consume_cons (m : List (String × FlagRec)) {next : JStr}
    (h1 : isOpt next = true) (h2 : consumesVal m next = true) (v : JStr)
    (rest' : List JStr) :
    orGo m (next :: v :: rest') = ((orGo m rest').1, next :: v :: (orGo m rest').2) := by
  rw [orGo.eq_def]
  simp [h1, h2]

/-- Unfolding equations for `dangling`. -/
theorem dangling_skip (m : List (String × FlagRec)) {next : JStr}
    (h : (isOpt next && consumesVal m next) = false) (rest : List JStr) :
    dangling m (next :: rest) = dangling m rest := by
  rw [dangling.eq_def]
  simp [h]

theorem dangling_consume_nil (m : List (String × FlagRec)) {next : JStr}
    (h1 : isOpt next = true) (h2 : consumesVal m next = true) :
    dangling m [next] = true := by
  rw [dangling.eq_def]
  simp [h1, h2]

theorem dangling_consume_cons (m : List (String × FlagRec)) {next : JStr}
    (h1 : isOpt next = true) (h2 : consumesVal m next = true) (v : JStr)
    (rest' : List JStr) :
    dangling m (next :: v :: rest') = dangling m rest' := by
  rw [dangling.eq_def]
  simp [h1, h2]

/-- Each loop step moves one token, except the very last one when the
scan ends on a dangling value-consuming flag, which adds the shifted
`undefined`. -/
theorem orGo_length (m : List (String × FlagRec)) (l : List JStr) :
    (orGo m l).1.length + (orGo m l).2.length =
      l.length + (if dangling m l = true then 1 else 0) := by
  induction l using orGo.induct m with
  | case1 => rfl
  | case2 v h1 h2 =>
    rw [orGo_consume_nil m h1 h2, dangling_consume_nil m h1 h2]
    simp
  | case3 v h1 h2 v1 rest' ih =>
    rw [orGo_consume_cons m h1 h2 v1 rest', dangling_consume_cons m h1 h2 v1 rest']
    simp only [List.length_cons]
    omega
  | case4 v rest' h1 h2 ih =>
    simp only [Bool.not_eq_true] at h2
    rw [orGo_noconsume m h1 h2 rest', dangling_skip m (by simp [h1, h2]) rest']
    simp only [List.length_cons]
    omega
  | case5 v rest' h1 ih =>
    simp only [Bool.not_eq_true] at h1
    rw [orGo_notopt m h1 rest', dangling_skip m (by simp [h1]) rest']
    simp only [List.length_cons]
    omega

/-- When no dangling shift occurs, the two accumulators interleave back
to the input: `optRight` is then a stable partition. -/
theorem orGo_interleave (m : List (String × FlagRec)) :
    ∀ l : List JStr, dangling m l = false →
      Interleave (orGo m l).1 (orGo m l).2 l := by
  intro l
  induction l using orGo.induct m with
  | case1 => intro _; exact .nil
  | case2 v h1 h2 =>
    intro hd
    rw [dangling_consume_nil m h1 h2] at hd
    exact absurd hd (by simp)
  | case3 v h1 h2 v1 rest' ih =>
    intro hd
    rw [dangling_consume_cons m h1 h2 v1 rest'] at hd
    rw [orGo_consume_cons m h1 h2 v1 rest']
    exact .right v (.right v1 (ih hd))
  | case4 v rest' h1 h2 ih =>
    intro hd
    simp only [Bool.not_eq_true] at h2
    rw [dangling_skip m (by simp [h1, h2]) rest'] at hd
    rw [orGo_noconsume m h1 h2 rest']
    exact .right v (ih hd)
  | case5 v rest' h1 ih =>
    intro hd
    simp only [Bool.not_eq_true] at h1
    rw [dangling_skip m (by simp [h1]) rest'] at hd
    rw [orGo_notopt m h1 rest']
    exact .left v (ih hd)

/-- The `arg` accumulator holds only non-option tokens. -/
theorem orGo_fst_not_opt (m : List (String × FlagRec)) :
    ∀ (l : List JStr) (x : JStr), x ∈ (orGo m l).1 → isOpt x = false := by
  intro l
  induction l using orGo.induct m with
  | case1 => intro x hx; simp [orGo] at hx
  | case2 v h1 h2 =>
    intro x hx
    rw [orGo_consume_nil m h1 h2] at hx
    simp at hx
  | case3 v h1 h2 v1 rest' ih =>
    intro x hx
    rw [orGo_consume_cons m h1 h2 v1 rest'] at hx
    exact ih x hx
  | case4 v rest' h1 h2 ih =>
    intro x hx
    simp only [Bool.not_eq_true] at h2
    rw [orGo_noconsume m h1 h2 rest'] at hx
    exact ih x hx
  | case5 v rest' h1 ih =>
    intro x hx
    simp only [Bool.not_eq_true] at h1
    rw [orGo_notopt m h1 rest'] at hx
    simp only [List.mem_cons] at hx
    rcases hx with rfl | hx
    · exact h1
    · exact ih x hx

/-- The `opt` accumulator is a sequence of blocks: a non-consuming
option token alone, or a consuming option token followed by exactly one
element. -/
theorem orGo_snd_blocks (m : List (String × FlagRec)) :
    ∀ l : List JStr, OptBlocks m (orGo m l).2 := by
  intro l
  induction l using orGo.induct m with
  | case1 => exact .nil
  | case2 v h1 h2 =>
    rw [orGo_consume_nil m h1 h2]
    exact OptBlocks.pair v none h1 h2 .nil
  | case3 v h1 h2 v1 rest' ih =>
    rw [orGo_consume_cons m h1 h2 v1 rest']
    exact OptBlocks.pair v v1 h1 h2 ih
  | case4 v rest' h1 h2 ih =>
    simp only [Bool.not_eq_true] at h2
    rw [orGo_noconsume m h1 h2 rest']
    exact OptBlocks.single v h1 h2 ih
  | case5 v rest' h1 ih =>
    simp only [Bool.not_eq_true] at h1
    rw [orGo_notopt m h1 rest']
    exact ih

/-- Re-scanning an `opt` accumulator reproduces it unchanged: every flag
re-classifies the same way and re-consumes exactly the element that
follows it. -/
theorem blocks_orGo_fixed (m : List (String × FlagRec)) {o : List JStr}
    (h : OptBlocks m o) : orGo m o = ([], o) := by
  induction h with
  | nil => rfl
  | single f h1 h2 _ ih =>
    rw [orGo_noconsume m h1 h2, ih]
  | pair f v h1 h2 _ ih =>
    rw [orGo_consume_cons m h1 h2, ih]

/-- Prepending non-option tokens only extends the `arg` accumulator. -/
theorem orGo_append_left (m : List (String × FlagRec)) :
    ∀ (a o : List JStr), (∀ x ∈ a, isOpt x = false) →
      orGo m (a ++ o) = (a ++ (orGo m o).1, (orGo m o).2) := by
  intro a
  induction a with
  | nil => intro o _; simp
  | cons x xs ih =>
    intro o h
    have hx : isOpt x = false := h x (List.mem_cons_self x xs)
    have hxs := ih o (fun y hy => h y (List.mem_cons_of_mem x hy))
    rw [List.cons_append, orGo_notopt m hx (xs ++ o), hxs]
    rfl

/-- In the dangling case the `opt` accumulator ends with the shifted
`undefined`. -/
theorem orGo_dangling_last (m : List (String × FlagRec)) :
    ∀ l : List JStr, dangling m l = true →
      (orGo m l).2 ≠ [] ∧ (orGo m l).2.getLast? = some none := by
  intro l
  induction l using orGo.induct m with
  | case1 => intro hd; exact absurd hd (by simp [dangling])
  | case2 v h1 h2 =>
    intro _
    rw [orGo_consume_nil m h1 h2]
    exact ⟨by simp, by simp⟩
  | case3 v h1 h2 v1 rest' ih =>
    intro hd
    rw [dangling_consume_cons m h1 h2 v1 rest'] at hd
    obtain ⟨hne, hlast⟩ := ih hd
    rw [orGo_consume_cons m h1 h2 v1 rest']
    refine ⟨by simp, ?_⟩
    show (v :: v1 :: (orGo m rest').2).getLast? = some none
    obtain ⟨c, o', ho⟩ := List.exists_cons_of_ne_nil hne
    rw [ho] at hlast
    rw [List.getLast?_cons_cons, ho, List.getLast?_cons_cons]
    exact hlast
  | case4 v rest' h1 h2 ih =>
    intro hd
    simp only [Bool.not_eq_true] at h2
    rw [dangling_skip m (by simp [h1, h2]) rest'] at hd
    obtain ⟨hne, hlast⟩ := ih hd
    rw [orGo_noconsume m h1 h2 rest']
    refine ⟨by simp, ?_⟩
    show (v :: (orGo m rest').2).getLast? = some none
    obtain ⟨c, o', ho⟩ := List.exists_cons_of_ne_nil hne
    rw [ho] at hlast
    rw [ho, List.getLast?_cons_cons]
    exact hlast
  | case5 v rest' h1 ih =>
    intro hd
    simp only [Bool.not_eq_true] at h1
    rw [dangling_skip m (by simp [h1]) rest'] at hd
    rw [orGo_notopt m h1 rest']
    exact ih hd

/-! ## C1 — `optRight` stable partition and idempotence -/

/-- C1 (amended): whenever the scan does not end by shifting the empty
remainder (no registered non-boolean flag with no inline value is
reached as the final remaining token), `optRight` is a stable partition:
its output is `A ++ B` where `A` holds the non-option (positional)
tokens, `B` the option tokens with their consumed values, and `A` and
`B` interleave back to the original argv.  Idempotence
`optRight (optRight x) = optRight x` holds for every input
unconditionally. -/
theorem C1_optRight_stable_partition_idempotent
    (m : List (String × FlagRec)) (xs : List JStr) :
    (dangling m xs = false →
      ∃ A B, optRight m xs = A ++ B ∧ (∀ x ∈ A, isOpt x = false) ∧
        Interleave A B xs) ∧
    optRight m (optRight m xs) = optRight m xs := by
  constructor
  · intro hd
    exact ⟨(orGo m xs).1, (orGo m xs).2, rfl,
      fun x hx => orGo_fst_not_opt m xs x hx, orGo_interleave m xs hd⟩
  · show optRight m ((orGo m xs).1 ++ (orGo m xs).2) = optRight m xs
    unfold optRight
    rw [orGo_append_left m (orGo m xs).1 (orGo m xs).2
      (fun x hx => orGo_fst_not_opt m xs x hx),
      blocks_orGo_fixed m (orGo_snd_blocks m xs)]
    simp

/-- C1 counterexample: on a collector with the flag `-f, --file <path>`,
`optRight(['--file'])` is `['--file', undefined]` — one element longer
than its input — so no decomposition of the output into two subsequences
of the input exists and the claimed stable partition fails for this
argv (idempotence still holds). -/
theorem C1_counterexample :
    optRight cmFile.flags [some "--file"] = [some "--file", none] ∧
    ¬ ∃ A B, optRight cmFile.flags [some "--file"] = A ++ B ∧
        Interleave A B [some "--file"] := by
  refine ⟨rfl, ?_⟩
  rintro ⟨A, B, hAB, hI⟩
  have hlen := hI.length_eq
  have h2 : A.length + B.length = 2 := by
    have h := congrArg List.length hAB
    simpa using h.symm
  simp at hlen
  omega

/-- C1 witness: the theorem applied to a concrete interleaved argv on
the `-f, --file <path>` collector. -/
theorem C1_witness :
    (∃ A B,
      optRight cmFile.flags [some "a", some "--file", some "v", some "b"] = A ++ B ∧
      (∀ x ∈ A, isOpt x = false) ∧
      Interleave A B [some "a", some "--file", some "v", some "b"]) ∧
    optRight cmFile.flags
        (optRight cmFile.flags [some "a", some "--file", some "v", some "b"]) =
      optRight cmFile.flags [some "a", some "--file", some "v", some "b"] :=
  ⟨(C1_optRight_stable_partition_idempotent cmFile.flags
      [some "a", some "--file", some "v", some "b"]).1 rfl,
   (C1_optRight_stable_partition_idempotent cmFile.flags
      [some "a", some "--file", some "v", some "b"]).2⟩

/-! ## C9 — trailing value-consuming flag -/

/-- C9 (amended): when the `optRight` scan reaches a registered
non-boolean flag with no inline value as the final remaining token (the
flag is not itself consumed as the value of an earlier flag), the output
is one element longer than the input, ends with the `undefined` shifted
from the empty remainder, and is not a rearrangement of the input. -/
theorem C9_trailing_flag_appends_undefined
    (m : List (String × FlagRec)) (xs : List JStr) (hd : dangling m xs = true) :
    (optRight m xs).length = xs.length + 1 ∧
    (optRight m xs).getLast? = some (none : JStr) ∧
    ¬ List.Perm (optRight m xs) xs := by
  have hlen := orGo_length m xs
  rw [hd] at hlen
  simp only [if_true] at hlen
  obtain ⟨hne, hlast⟩ := orGo_dangling_last m xs hd
  refine ⟨?_, ?_, ?_⟩
  · show ((orGo m xs).1 ++ (orGo m xs).2).length = xs.length + 1
    simp only [List.length_append]
    omega
  · show ((orGo m xs).1 ++ (orGo m xs).2).getLast? = some none
    rw [List.getLast?_append_of_ne_nil _ hne]
    exact hlast
  · intro hperm
    have := hperm.length_eq
    simp only [optRight, List.length_append] at this
    omega

/-- C9 counterexample: in `['-f', '-g']` (both registered non-boolean
flags without inline values) the last token `-g` satisfies the claim's
premise, yet it is consumed as the value of `-f`: the output equals the
input — not one element longer and with no `undefined` appended — so the
claim's universal statement is false. -/
theorem C9_counterexample :
    optargMatch "-g" = some ("-g", none) ∧
    lookupFlag mFG "-g" = some frG ∧ frG.bool = false ∧
    optRight mFG [some "-f", some "-g"] = [some "-f", some "-g"] ∧
    (optRight mFG [some "-f", some "-g"]).length ≠
      ([some "-f", some "-g"] : List JStr).length + 1 := by
  refine ⟨rfl, rfl, rfl, rfl, by decide⟩

/-- C9 witness: the amended theorem applied to the single-token argv
`['-f']`, which is reached as a flag and dangles. -/
theorem C9_witness :
    (optRight mFG [some "-f"]).length = ([some "-f"] : List JStr).length + 1 ∧
    (optRight mFG [some "-f"]).getLast? = some (none : JStr) ∧
    ¬ List.Perm (optRight mFG [some "-f"]) [some "-f"] :=
  C9_trailing_flag_appends_undefined mFG [some "-f"] rfl

/-! ## C4 — missing required arguments vs `--help` -/

/-- If some declared argument is non-optional with a falsy slot value,
`firstMissing` finds one. -/
theorem firstMissing_isSome (args : List JSVal) :
    ∀ (defs : List ArgDef) (i j : Nat) (a : ArgDef), defs.get? j = some a →
      a.optional = false → truthy (getSlot args (i + j)) = false →
      (firstMissing defs args i).isSome = true := by
  intro defs
  induction defs with
  | nil => intro i j a h; simp at h
  | cons d ds ih =>
    intro i j a hj hopt hslot
    by_cases hd : (!d.optional && !truthy (getSlot args i)) = true
    · simp [firstMissing, hd]
    · cases j with
      | zero =>
        simp only [List.get?_cons_zero, Option.some.injEq] at hj
        subst hj
        rw [Nat.add_zero] at hslot
        exact absurd (by simp [hopt, hslot]) hd
      | succ j' =>
        have hrec := ih (i + 1) j' a (by simpa using hj) hopt
          (by rw [show i + 1 + j' = i + (j' + 1) by omega]; exact hslot)
        simpa [firstMissing, hd] using hrec

/-- Whatever `firstMissing` returns is a non-optional argument with a
falsy slot value. -/
theorem firstMissing_required (args : List JSVal) :
    ∀ (defs : List ArgDef) (i : Nat) (b : ArgDef),
      firstMissing defs args i = some b → b.optional = false := by
  intro defs
  induction defs with
  | nil => intro i b h; simp [firstMissing] at h
  | cons d ds ih =>
    intro i b h
    by_cases hd : (!d.optional && !truthy (getSlot args i)) = true
    · simp only [firstMissing, hd, if_true, Option.some.injEq] at h
      subst h
      simpa using (Bool.and_elim_left hd)
    · simp only [firstMissing, hd, if_false] at h
      exact ih (i + 1) b h

/-- C4: given a parse whose command slicing and token reduction
succeeded, `resolve` rejects with `missing required argument: <name>`
(naming the first non-optional declared argument whose received value
is falsy — in particular every declared non-optional argument that
received no value makes it reject) unless the `help` option was set, in
which case the check is skipped and `resolve` succeeds. -/
theorem C4_missing_argument_unless_help (c : Collector) (argv : List JStr)
    (cm : Collector) (list : List JStr) (st : PResult)
    (hs : sliceInstance c argv = .ok (cm, list))
    (hr : receiveAll cm ⟨[], []⟩ list = .ok st) :
    (truthy (getOptVal (applyDefaults cm st).options "help") = true →
      resolveRun c argv =
        .ok ⟨cm, list, (applyDefaults cm st).options, (applyDefaults cm st).args⟩) ∧
    (truthy (getOptVal (applyDefaults cm st).options "help") = false →
      (∀ (j : Nat) (a : ArgDef), cm.argDefs.get? j = some a → a.optional = false →
        truthy (getSlot (applyDefaults cm st).args j) = false →
        ∃ b, firstMissing cm.argDefs (applyDefaults cm st).args 0 = some b ∧
          b.optional = false ∧
          resolveRun c argv = .error ("missing required argument: " ++ b.name)) ∧
      (firstMissing cm.argDefs (applyDefaults cm st).args 0 = none →
        resolveRun c argv =
          .ok ⟨cm, list, (applyDefaults cm st).options, (applyDefaults cm st).args⟩)) := by
  constructor
  · intro hhelp
    simp [resolveRun, hs, hr, verify, hhelp]
  · intro hhelp
    constructor
    · intro j a hj hopt hslot
      have hsome := firstMissing_isSome (applyDefaults cm st).args cm.argDefs 0 j a hj hopt
        (by simpa using hslot)
      obtain ⟨b, hb⟩ := Option.isSome_iff_exists.mp hsome
      refine ⟨b, hb, firstMissing_required (applyDefaults cm st).args cm.argDefs 0 b hb, ?_⟩
      simp [resolveRun, hs, hr, verify, hhelp, hb]
    · intro hfm
      simp [resolveRun, hs, hr, verify, hhelp, hfm]

/-- C4 witness: the theorem applied to the collector declaring required
argument `foo` with a help option, on the empty argv (help absent):
resolve rejects naming `foo`. -/
theorem C4_witness :
    ∃ b, firstMissing cHelpFoo.argDefs (applyDefaults cHelpFoo ⟨[], []⟩).args 0 = some b ∧
      b.optional = false ∧
      resolveRun cHelpFoo [] = .error ("missing required argument: " ++ b.name) :=
  ((C4_missing_argument_unless_help cHelpFoo [] cHelpFoo [] ⟨[], []⟩ rfl rfl).2 rfl).1
    0 ⟨"foo", false, false⟩ rfl rfl rfl

/-! ## C3 — negated boolean flags -/

/-- One `Map.set`-style binding: first-match lookup on a cons. -/
theorem lookupFlag_cons (x : String) (g : FlagRec) (m : List (String × FlagRec))
    (a : String) :
    lookupFlag ((x, g) :: m) a = if (x == a) = true then some g else lookupFlag m a := by
  unfold lookupFlag
  cases hb : x == a
  · simp [List.find?, hb]
  · simp [List.find?, hb]

/-- Alias-map lookup after registering all aliases of one flag. -/
theorem lookup_setFlags (fr : FlagRec) (a : String) :
    ∀ (as : List String) (m : List (String × FlagRec)),
      lookupFlag (setFlags as fr m) a =
        if a ∈ as then some fr else lookupFlag m a := by
  intro as
  induction as with
  | nil => intro m; simp [setFlags]
  | cons x xs ih =>
    intro m
    rw [show setFlags (x :: xs) fr m = setFlags xs fr ((x, fr) :: m) from rfl, ih]
    by_cases hax : a ∈ xs
    · simp [hax]
    · simp only [hax, if_false, List.mem_cons]
      rw [lookupFlag_cons]
      by_cases hx : a = x
      · simp [hx]
      · have hxb : (x == a) = false := by
          simp only [beq_eq_false_iff_ne, ne_eq]
          exact fun e => hx e.symm
        simp [hxb, hx]

/-- A collector with no subcommands never descends. -/
theorem sliceGo_no_cmds (cur : Collector) (hc : cur.cmds = []) :
    ∀ (ts : List JStr) (i : Nat) (start : Option Nat) (len : Nat),
      sliceGo cur ts i start len = .ok (cur, start, len) := by
  intro ts
  induction ts with
  | nil => intro i start len; rfl
  | cons t ts ih =>
    intro i start len
    cases t with
    | none => exact ih (i + 1) start len
    | some s =>
      have : lookupCmd cur.cmds s = none := by rw [hc]; rfl
      simp only [sliceGo, this]
      exact ih (i + 1) start len

/-- `_sliceInstance` on a collector with no subcommands keeps the token
list intact and resolves to the collector itself. -/
theorem sliceInstance_no_cmds (c : Collector) (hc : c.cmds = []) (argv : List JStr) :
    sliceInstance c argv = .ok (c, argv) := by
  unfold sliceInstance
  rw [sliceGo_no_cmds c hc argv 0 none 0]
  rfl

/-- Unfolding equations for `receiveAll` (the generated equations split
on the first two list cells, so spell out the reachable shapes). -/
theorem receiveAll_nil (cm : Collector) (st : PResult) :
    receiveAll cm st [] = .ok st := by
  rw [receiveAll.eq_def]

theorem receiveAll_cons_opt_ok_nil (cm : Collector) (st : PResult) {cur : JStr}
    (ho : isOpt cur = true) {c : Bool} {n : String} {v : JSVal}
    (hov : optVal cm st.options (cur.getD "") [] = (c, .ok (n, v))) :
    receiveAll cm st [cur] = .ok { st with options := (n, v) :: st.options } := by
  rw [receiveAll.eq_def]
  simp [ho, hov]

theorem receiveAll_cons_opt_ok_cons (cm : Collector) (st : PResult) {cur : JStr}
    (ho : isOpt cur = true) (r : JStr) (rest' : List JStr) {c : Bool} {n : String}
    {v : JSVal}
    (hov : optVal cm st.options (cur.getD "") (r :: rest') = (c, .ok (n, v))) :
    receiveAll cm st (cur :: r :: rest') =
      receiveAll cm { st with options := (n, v) :: st.options }
        (if c then rest' else r :: rest') := by
  rw [receiveAll.eq_def]
  cases c <;> simp [ho, hov]

theorem receiveAll_cons_opt_err (cm : Collector) (st : PResult) {cur : JStr}
    (ho : isOpt cur = true) (rest : List JStr) {c : Bool} {e : String}
    (hov : optVal cm st.options (cur.getD "") rest = (c, .error e)) :
    receiveAll cm st (cur :: rest) = .error e := by
  rw [receiveAll.eq_def]
  cases rest <;> simp [ho, hov]

theorem receiveAll_cons_notopt (cm : Collector) (st : PResult) {cur : JStr}
    (ho : isOpt cur = false) (rest : List JStr) {args' : List JSVal}
    (hp : pushArg cm.argDefs st.args cur = .ok args') :
    receiveAll cm st (cur :: rest) = receiveAll cm { st with args := args' } rest := by
  rw [receiveAll.eq_def]
  simp [ho, hp]

/-- `resolve` on a root collector with no subcommands, with the slicing
phase discharged. -/
theorem resolveRun_no_cmds (c : Collector) (hc : c.cmds = []) (argv : List JStr) :
    resolveRun c argv =
      (match receiveAll c ⟨[], []⟩ argv with
       | .error e => .error e
       | .ok st =>
         match verify c (applyDefaults c st) with
         | .error e => .error e
         | .ok _ => .ok ⟨c, argv, (applyDefaults c st).options,
             (applyDefaults c st).args⟩) := by
  unfold resolveRun
  rw [sliceInstance_no_cmds c hc argv]

/-- When every stored entry binds the flag's name to `false`, so does the
object lookup (last write wins; here all writes agree). -/
theorem getOptVal_all_false (nm : String) :
    ∀ (opts : List (String × JSVal)), opts ≠ [] →
      (∀ p ∈ opts, p = (nm, JSVal.bool false)) →
      getOptVal opts nm = .bool false := by
  intro opts hne hall
  obtain ⟨p, rest, rfl⟩ := List.exists_cons_of_ne_nil hne
  have hp := hall p (by simp)
  subst hp
  simp [getOptVal, List.find?]

/-- A negated flag parses as boolean with default `true`. -/
theorem flagParse_neg_fields (syn : String) (dv : JSVal) (fn : Option Handler)
    (fr : FlagRec) (h : flagParse syn dv fn = some fr) (hn : fr.neg = true) :
    fr.bool = true ∧ fr.defaultValue = .bool true := by
  unfold flagParse at h
  cases hf : findFlag syn.data with
  | none => rw [hf] at h; exact absurd h (by simp)
  | some ph =>
    rw [hf] at h
    simp only [Option.some.injEq] at h
    subst h
    simp only [FlagRec.neg] at hn
    have hn' := hn
    simp only [Bool.and_eq_true] at hn'
    obtain ⟨hb2, hdec⟩ := hn'
    refine ⟨hb2, ?_⟩
    have hprop := of_decide_eq_true hdec
    rw [List.getLastD_eq_getLast?] at hprop
    simp [FlagRec.defaultValue, hb2, hdec, hprop, List.getLastD_eq_getLast?]

/-- The parse-loop invariant for a root collector declaring exactly one
option (unknowns disallowed, no arguments, no subcommands): every write
to the options object is `(fr.name, false)` — the flag, being boolean
and negated, resolves to `false` whenever one of its aliases is supplied
— and the object stays empty when no token supplies the flag. -/
theorem C3_rcv_aux (d : OptDecl) (fr : FlagRec)
    (hbool : fr.bool = true) (hneg : fr.neg = true) :
    ∀ (l : List JStr) (st st' : PResult),
      receiveAll (Collector.mk [(d, fr)] [] [] (setFlags fr.aliases fr []) false) st l
        = .ok st' →
      (∀ p ∈ st.options, p = (fr.name, JSVal.bool false)) →
      ((∀ p ∈ st'.options, p = (fr.name, JSVal.bool false)) ∧
       (l.any (suppliedTok fr) = true → st'.options ≠ []) ∧
       (l.any (suppliedTok fr) = false → st'.options = st.options)) := by
  intro l
  induction l with
  | nil =>
    intro st st' h hinv
    rw [receiveAll_nil] at h
    simp only [Except.ok.injEq] at h
    subst h
    exact ⟨hinv, by simp, fun _ => rfl⟩
  | cons cur rest ih =>
    intro st st' h hinv
    by_cases ho : isOpt cur = true
    · cases cur with
      | none => exact absurd ho (by simp [isOpt, isOptStr, optargMatch])
      | some s =>
        have hsome : (optargMatch s).isSome = true := ho
        obtain ⟨⟨fl, fv⟩, hm⟩ := Option.isSome_iff_exists.mp hsome
        have hsup : suppliedTok fr (some s) = fr.aliases.contains fl := by
          simp [suppliedTok, hm]
        by_cases hmem : fl ∈ fr.aliases
        · have hlu : lookupFlag (setFlags fr.aliases fr []) fl = some fr := by
            rw [lookup_setFlags]; simp [hmem]
          have hcontains : fr.aliases.contains fl = true := by
            simpa [List.contains] using List.elem_eq_true_of_mem hmem
          cases rest with
          | nil =>
            have hov : optVal (Collector.mk [(d, fr)] [] [] (setFlags fr.aliases fr []) false)
                st.options s [] = (false, .ok (fr.name, JSVal.bool false)) := by
              simp [optVal, hm, Collector.flags, hlu, hbool, hneg]
            rw [receiveAll_cons_opt_ok_nil _ _ ho hov] at h
            simp only [Except.ok.injEq] at h
            subst h
            refine ⟨?_, fun _ => by simp, ?_⟩
            · intro p hp
              rcases List.mem_cons.mp hp with rfl | hp
              · rfl
              · exact hinv p hp
            · intro hfalse
              rw [List.any_cons, hsup, hcontains] at hfalse
              simp at hfalse
          | cons r rest' =>
            have hov : optVal (Collector.mk [(d, fr)] [] [] (setFlags fr.aliases fr []) false)
                st.options s (r :: rest') = (false, .ok (fr.name, JSVal.bool false)) := by
              simp [optVal, hm, Collector.flags, hlu, hbool, hneg]
            rw [receiveAll_cons_opt_ok_cons _ _ ho r rest' hov, if_neg (by simp)] at h
            obtain ⟨hall', hsup', _⟩ := ih { st with options := (fr.name, .bool false) :: st.options }
              st' h (by
                intro p hp
                rcases List.mem_cons.mp hp with rfl | hp
                · rfl
                · exact hinv p hp)
            refine ⟨hall', fun _ => ?_, ?_⟩
            · by_cases hrest : (r :: rest').any (suppliedTok fr) = true
              · exact hsup' hrest
              · simp only [Bool.not_eq_true] at hrest
                rw [ih { st with options := (fr.name, .bool false) :: st.options } st' h
                  (by
                    intro p hp
                    rcases List.mem_cons.mp hp with rfl | hp
                    · rfl
                    · exact hinv p hp) |>.2.2 hrest]
                simp
            · intro hfalse
              rw [List.any_cons, hsup, hcontains] at hfalse
              simp at hfalse
        · have hlu : lookupFlag (setFlags fr.aliases fr []) fl = none := by
            rw [lookup_setFlags]; simp [hmem, lookupFlag, List.find?]
          have hov : optVal (Collector.mk [(d, fr)] [] [] (setFlags fr.aliases fr []) false)
              st.options s rest = (false, .error ("Unknown option: " ++ fl)) := by
            simp [optVal, hm, Collector.flags, Collector.unknowns, hlu]
          rw [receiveAll_cons_opt_err _ _ ho rest hov] at h
          exact absurd h (by simp)
    · have hsup0 : suppliedTok fr cur = false := by
        cases cur with
        | none => rfl
        | some s =>
          have : optargMatch s = none := by
            have : (optargMatch s).isSome = false := by simpa [isOpt, isOptStr] using ho
            exact Option.not_isSome_iff_eq_none.mp (by simp [this])
          simp [suppliedTok, this]
      simp only [Bool.not_eq_true] at ho
      have hpush : pushArg (Collector.mk [(d, fr)] [] [] (setFlags fr.aliases fr [])
          false).argDefs st.args cur = .ok (st.args ++ [jstrv cur]) := by
        simp [pushArg, Collector.argDefs]
      rw [receiveAll_cons_notopt _ _ ho rest hpush] at h
      obtain ⟨hall', hsup', heq'⟩ := ih { st with args := st.args ++ [jstrv cur] } st' h hinv
      refine ⟨hall', ?_, ?_⟩
      · intro hany
        rw [List.any_cons, hsup0] at hany
        simp only [Bool.false_or] at hany
        exact hsup' hany
      · intro hany
        rw [List.any_cons, hsup0] at hany
        simp only [Bool.false_or] at hany
        exact heq' hany

/-- C3: for every option declared with boolean negated syntax on a fresh
root collector, the resolved value of the flag's canonical name is
`true` (its derived default) after any successful parse in which no
argv token supplies the flag, and `false` after any successful parse in
which some token does. -/
theorem C3_negated_boolean_semantics (syn : String) (dv : JSVal) (fn : Option Handler)
    (fr : FlagRec) (c : Collector)
    (hp : flagParse syn dv fn = some fr) (hn : fr.neg = true)
    (hc : (Collector.mk [] [] [] [] false).option1 ⟨syn, dv, fn, true⟩ = .ok c) :
    fr.defaultValue = .bool true ∧
    ∀ (argv : List JStr) (res : RRes), resolveRun c argv = .ok res →
      (argv.any (suppliedTok fr) = false → getOptVal res.options fr.name = .bool true) ∧
      (argv.any (suppliedTok fr) = true → getOptVal res.options fr.name = .bool false) := by
  obtain ⟨hbool, hdef⟩ := flagParse_neg_fields syn dv fn fr hp hn
  refine ⟨hdef, ?_⟩
  have hcval : c = Collector.mk [(⟨syn, dv, fn, true⟩, fr)] [] []
      (setFlags fr.aliases fr []) false := by
    unfold Collector.option1 at hc
    simp only [hp] at hc
    simp only [Except.ok.injEq] at hc
    exact hc.symm
  subst hcval
  intro argv res hres
  rw [resolveRun_no_cmds (Collector.mk [(⟨syn, dv, fn, true⟩, fr)] [] []
      (setFlags fr.aliases fr []) false) rfl argv] at hres
  cases hrc : receiveAll (Collector.mk [(⟨syn, dv, fn, true⟩, fr)] [] []
      (setFlags fr.aliases fr []) false) ⟨[], []⟩ argv with
  | error e =>
    simp only [hrc] at hres
    exact absurd hres (by simp)
  | ok st' =>
    simp only [hrc] at hres
    have hver : verify (Collector.mk [(⟨syn, dv, fn, true⟩, fr)] [] []
        (setFlags fr.aliases fr []) false)
        (applyDefaults (Collector.mk [(⟨syn, dv, fn, true⟩, fr)] [] []
          (setFlags fr.aliases fr []) false) st') = .ok () := by
      unfold verify
      split
      · rfl
      · rfl
    simp only [hver] at hres
    simp only [Except.ok.injEq] at hres
    obtain ⟨hall, hsup, hunsup⟩ := C3_rcv_aux ⟨syn, dv, fn, true⟩ fr hbool hn argv
      ⟨[], []⟩ st' hrc (by intro p hp'; simp at hp')
    subst hres
    constructor
    · intro hns
      have he : st'.options = ([] : List (String × JSVal)) := hunsup hns
      show getOptVal (applyDefaults _ st').options fr.name = .bool true
      simp [applyDefaults, Collector.opts, he, getOptVal, List.find?, JSVal.isUndef, hdef]
    · intro hs2
      have hne := hsup hs2
      have hofv := getOptVal_all_false fr.name st'.options hne hall
      show getOptVal (applyDefaults _ st').options fr.name = .bool false
      have hkeep : (applyDefaults (Collector.mk [(⟨syn, dv, fn, true⟩, fr)] [] []
          (setFlags fr.aliases fr []) false) st').options = st'.options := by
        simp [applyDefaults, Collector.opts, hofv, JSVal.isUndef]
      rw [hkeep]
      exact hofv

/-- C3 witness: the theorem applied to `--no-wammies` on its one-option
collector, for the empty argv (default `true`) and for the argv
supplying the flag (resolves to `false`). -/
theorem C3_witness :
    frWammies.defaultValue = .bool true ∧
    (∃ r1, resolveRun cWammies [] = .ok r1 ∧
       getOptVal r1.options "wammies" = .bool true) ∧
    (∃ r2, resolveRun cWammies [some "--no-wammies"] = .ok r2 ∧
       getOptVal r2.options "wammies" = .bool false) := by
  have h := C3_negated_boolean_semantics "--no-wammies" .undef none frWammies cWammies
    rfl rfl rfl
  exact ⟨h.1, ⟨_, rfl, (h.2 [] _ rfl).1 rfl⟩, ⟨_, rfl, (h.2 [some "--no-wammies"] _ rfl).2 rfl⟩⟩

/-! ## C8 — positional filling and the trailing variadic slot -/

theorem receiveAll_cons_notopt_err (cm : Collector) (st : PResult) {cur : JStr}
    (ho : isOpt cur = false) (rest : List JStr) {e : String}
    (hp : pushArg cm.argDefs st.args cur = .error e) :
    receiveAll cm st (cur :: rest) = .error e := by
  rw [receiveAll.eq_def]
  simp [ho, hp]

/-- On all-positional argv the reduction is exactly the `pushArg` fold,
and the options object is untouched. -/
theorem receiveAll_posFold (cm : Collector) :
    ∀ (l : List JStr), (∀ t ∈ l, isOpt t = false) →
    ∀ (opts0 : List (String × JSVal)) (args0 : List JSVal),
      receiveAll cm ⟨opts0, args0⟩ l =
        (match posFold cm.argDefs args0 l with
         | .error e => .error e
         | .ok a => .ok ⟨opts0, a⟩) := by
  intro l
  induction l with
  | nil => intro _ opts0 args0; rw [receiveAll_nil]; rfl
  | cons t ts ih =>
    intro hno opts0 args0
    have ht : isOpt t = false := hno t (List.mem_cons_self t ts)
    cases hp : pushArg cm.argDefs args0 t with
    | error e =>
      rw [receiveAll_cons_notopt_err cm ⟨opts0, args0⟩ ht ts hp]
      simp [posFold, hp]
    | ok args' =>
      rw [receiveAll_cons_notopt cm ⟨opts0, args0⟩ ht ts hp]
      rw [ih (fun x hx => hno x (List.mem_cons_of_mem t hx)) opts0 args']
      simp [posFold, hp]

theorem getSlot_len_undef (l : List JSVal) : getSlot l l.length = .undef := by
  simp [getSlot, List.getD_eq_getElem?_getD, List.getElem?_len_le]

theorem getSlot_append_len (l : List JSVal) (x : JSVal) :
    getSlot (l ++ [x]) l.length = x := by
  simp [getSlot, List.getD_eq_getElem?_getD, List.getElem?_concat_length]

theorem set_append_len (l : List JSVal) (x v : JSVal) :
    (l ++ [x]).set l.length v = l ++ [v] := by
  induction l with
  | nil => rfl
  | cons y ys ih => simp [List.set, ih]

/-- Once the variadic slot holds an array, every further positional
token is pushed into it. -/
theorem posFold_multi_acc (defs : List ArgDef) (hne : defs ≠ [])
    (hlast : (defs.getLast hne).multi = true)
    (base : List JSVal) (hb : base.length = defs.length - 1) :
    ∀ (l : List JStr) (acc : List JSVal),
      posFold defs (base ++ [.list acc]) l =
        .ok (base ++ [.list (acc ++ l.map jstrv)]) := by
  intro l
  induction l with
  | nil => intro acc; simp [posFold]
  | cons t ts ih =>
    intro acc
    have hie : defs.isEmpty = false := by simpa [List.isEmpty_iff] using hne
    have hlen : (base ++ [JSVal.list acc]).length = defs.length := by
      have : 1 ≤ defs.length := List.length_pos.mpr hne
      simp [hb]
      omega
    have hget : defs.get? (defs.length - 1) = some (defs.getLast hne) := by
      rw [List.get?_eq_getElem?, List.getLast_eq_getElem (l := defs) hne]
      exact List.getElem?_eq_getElem (by have := List.length_pos.mpr hne; omega)
    have hp : pushArg defs (base ++ [.list acc]) t =
        .ok (base ++ [.list (acc ++ [jstrv t])]) := by
      unfold pushArg
      rw [hie]
      simp only [Bool.false_eq_true, if_false]
      rw [hlen, Nat.min_eq_right (Nat.sub_le _ _), hget]
      simp only [hlast, if_true]
      rw [← hb, getSlot_append_len]
      simp only [truthy, if_true]
      unfold setSlot
      rw [if_pos (by simp), set_append_len]
    simp only [posFold, hp]
    rw [ih (acc ++ [jstrv t])]
    simp

/-- Positional tokens fill the declared slots in order; once the last
(variadic) slot is reached, the remaining tokens are collected into a
single array. -/
theorem posFold_fill (defs : List ArgDef) (hne : defs ≠ [])
    (hmid : ∀ d ∈ defs.dropLast, d.multi = false)
    (hlast : (defs.getLast hne).multi = true) :
    ∀ (l pre : List JStr), pre.length ≤ defs.length - 1 →
      posFold defs (pre.map jstrv) l =
        .ok ((((pre ++ l).take (defs.length - 1)).map jstrv) ++
          (if (pre ++ l).length ≤ defs.length - 1 then []
           else [.list (((pre ++ l).drop (defs.length - 1)).map jstrv)])) := by
  intro l
  induction l with
  | nil =>
    intro pre hk
    simp only [posFold, List.append_nil]
    rw [List.take_of_length_le hk, if_pos hk]
    simp
  | cons t ts ih =>
    intro pre hk
    have hie : defs.isEmpty = false := by simpa [List.isEmpty_iff] using hne
    have hpos : 1 ≤ defs.length := List.length_pos.mpr hne
    rcases Nat.lt_or_ge pre.length (defs.length - 1) with hlt | hge
    · have hltfull : pre.length < defs.length := by omega
      have hd : defs.get? pre.length = some defs[pre.length] := by
        rw [List.get?_eq_getElem?]
        exact List.getElem?_eq_getElem hltfull
      have hmem : defs[pre.length] ∈ defs.dropLast := by
        have hq : defs.dropLast[pre.length]? = some defs[pre.length] := by
          rw [List.dropLast_eq_take, List.getElem?_take, if_pos hlt]
          exact List.getElem?_eq_getElem hltfull
        exact List.getElem?_mem hq
      have hdm : defs[pre.length].multi = false := hmid _ hmem
      have hp : pushArg defs (pre.map jstrv) t = .ok (pre.map jstrv ++ [jstrv t]) := by
        unfold pushArg
        rw [hie]
        simp only [Bool.false_eq_true, if_false]
        rw [List.length_map, Nat.min_eq_left (by omega), hd]
        simp [hdm]
      simp only [posFold, hp]
      rw [show pre.map jstrv ++ [jstrv t] = (pre ++ [t]).map jstrv by simp]
      rw [ih (pre ++ [t]) (by simp; omega)]
      simp [List.append_assoc]
    · have hkeq : pre.length = defs.length - 1 := le_antisymm hk hge
      have hget : defs.get? (defs.length - 1) = some (defs.getLast hne) := by
        rw [List.get?_eq_getElem?, List.getLast_eq_getElem (l := defs) hne]
        exact List.getElem?_eq_getElem (by have := List.length_pos.mpr hne; omega)
      have hp : pushArg defs (pre.map jstrv) t =
          .ok (pre.map jstrv ++ [.list [jstrv t]]) := by
        unfold pushArg
        rw [hie]
        simp only [Bool.false_eq_true, if_false]
        rw [List.length_map, hkeq, Nat.min_self, hget]
        simp only [hlast, if_true]
        rw [show defs.length - 1 = (pre.map jstrv).length by simp [hkeq]]
        rw [getSlot_len_undef]
        simp only [truthy, Bool.false_eq_true, if_false]
        unfold setSlot
        rw [if_neg (by simp)]
        simp
      simp only [posFold, hp]
      rw [posFold_multi_acc defs hne hlast (pre.map jstrv) (by simp [hkeq]) ts [jstrv t]]
      have htake : (pre ++ t :: ts).take (defs.length - 1) = pre := by
        rw [← hkeq]
        exact List.take_left' rfl
      have hdrop : (pre ++ t :: ts).drop (defs.length - 1) = t :: ts := by
        rw [← hkeq]
        exact List.drop_left' rfl
      rw [htake, hdrop, if_neg (by simp [← hkeq])]
      simp

/-- C8: positional values fill declared argument slots in order and the
final variadic slot collects the remaining positional tokens as one
array; in particular, for a collector declaring exactly one required
variadic argument and no options, `resolve(['a','b','c'])` succeeds
with `args = [['a','b','c']]`. -/
theorem C8_variadic_fill :
    (∀ (cm : Collector) (tokens : List JStr) (opts0 : List (String × JSVal))
       (hne : cm.argDefs ≠ []),
       (∀ d ∈ cm.argDefs.dropLast, d.multi = false) →
       (cm.argDefs.getLast hne).multi = true →
       (∀ t ∈ tokens, isOpt t = false) →
       receiveAll cm ⟨opts0, []⟩ tokens =
         .ok ⟨opts0, ((tokens.take (cm.argDefs.length - 1)).map jstrv) ++
           (if tokens.length ≤ cm.argDefs.length - 1 then []
            else [.list ((tokens.drop (cm.argDefs.length - 1)).map jstrv)])⟩) ∧
    (∃ r, resolveRun cFiles [some "a", some "b", some "c"] = .ok r ∧
       r.args = [.list [.str "a", .str "b", .str "c"]]) := by
  constructor
  · intro cm tokens opts0 hne hmid hlast hno
    rw [show (⟨opts0, []⟩ : PResult) = ⟨opts0, ([] : List JStr).map jstrv⟩ from rfl]
    rw [receiveAll_posFold cm tokens hno opts0]
    rw [posFold_fill cm.argDefs hne hmid hlast tokens [] (by simp)]
    simp
  · exact ⟨_, rfl, rfl⟩

/-- C8 witness: the general filling law applied to the `files` collector
on three positional tokens. -/
theorem C8_witness :
    receiveAll cFiles ⟨[], []⟩ [some "a", some "b", some "c"] =
      .ok ⟨[], [.list [.str "a", .str "b", .str "c"]]⟩ := by
  have h := C8_variadic_fill.1 cFiles [some "a", some "b", some "c"] []
    (by simp [cFiles, Collector.argDefs]) (by simp [cFiles, Collector.argDefs])
    (by simp [cFiles, Collector.argDefs, List.getLast]) (by decide)
  simpa using h

/-! ## C6 — option inheritance at command-path slicing -/

theorem option1_coherent (c0 : Collector) (e : OptDecl × FlagRec)
    (he : flagParse e.1.flag e.1.dflt e.1.fn = some e.2) :
    c0.option1 e.1 = .ok (Collector.mk (dedupeByName e.2.name c0.opts ++ [e])
      c0.argDefs c0.cmds (setFlags e.2.aliases e.2 c0.flags) c0.unknowns) := by
  unfold Collector.option1
  rw [he]

/-- Registering declarations whose flags all parse is the pure
`regPairs` fold. -/
theorem optionMany_coherent :
    ∀ (ps : List (OptDecl × FlagRec)) (c0 : Collector),
      (∀ e ∈ ps, flagParse e.1.flag e.1.dflt e.1.fn = some e.2) →
      c0.optionMany (ps.map (·.1)) = .ok (regPairs c0 ps) := by
  intro ps
  induction ps with
  | nil => intro c0 _; rfl
  | cons e es ih =>
    intro c0 hco
    have he := hco e (List.mem_cons_self e es)
    show Collector.optionMany c0 ((e :: es).map (·.1)) = _
    rw [List.map_cons]
    unfold Collector.optionMany
    rw [List.foldlM_cons, option1_coherent c0 e he]
    show Collector.optionMany _ (es.map (·.1)) = _
    rw [ih _ (fun x hx => hco x (List.mem_cons_of_mem e hx))]
    rfl

theorem dedupeByName_id (nm : String) :
    ∀ l : List (OptDecl × FlagRec), (∀ e ∈ l, (e.2.name == nm) = false) →
      dedupeByName nm l = l := by
  intro l
  induction l with
  | nil => intro _; rfl
  | cons e es ih =>
    intro h
    have he := h e (List.mem_cons_self e es)
    have hstep : dedupeByName nm (e :: es) = e :: dedupeByName nm es := by
      cases es with
      | nil => simp [dedupeByName, he]
      | cons f fs =>
        show (if (e.2.name == nm) = true then f :: dedupeByName nm fs
              else e :: dedupeByName nm (f :: fs)) = _
        rw [if_neg (by simp [he])]
    rw [hstep, ih (fun x hx => h x (List.mem_cons_of_mem e hx))]

/-- With canonical names unique in the list, the splice-in-`forEach`
dedupe behaves as an ordinary filter (at most one entry can match, so
the skipped element never matters). -/
theorem dedupeByName_filter (nm : String) :
    ∀ l : List (OptDecl × FlagRec), ((l.map (fun e => e.2.name)).Nodup) →
      dedupeByName nm l = l.filter (fun e => !(e.2.name == nm)) := by
  intro l
  induction l with
  | nil => intro _; rfl
  | cons e es ih =>
    intro hnd
    simp only [List.map_cons, List.nodup_cons] at hnd
    by_cases he : (e.2.name == nm) = true
    · have hnoml : ∀ x ∈ es, (x.2.name == nm) = false := by
        intro x hx
        have hnm : e.2.name = nm := by simpa using he
        have hxe : x.2.name ≠ nm := by
          rw [← hnm]
          intro hc
          exact hnd.1 (hc ▸ List.mem_map_of_mem _ hx)
        simpa using hxe
      have hfes : es.filter (fun x => !(x.2.name == nm)) = es := by
        apply List.filter_eq_self.mpr
        intro x hx
        simp [hnoml x hx]
      rw [List.filter_cons]
      simp only [he, Bool.not_true, Bool.false_eq_true, if_false]
      rw [hfes]
      cases es with
      | nil => simp [dedupeByName, he]
      | cons f fs =>
        have hfs : dedupeByName nm fs = fs :=
          dedupeByName_id nm fs (fun x hx => hnoml x (List.mem_cons_of_mem f hx))
        show (if (e.2.name == nm) = true then f :: dedupeByName nm fs
              else e :: dedupeByName nm (f :: fs)) = f :: fs
        rw [if_pos he, hfs]
    · simp only [Bool.not_eq_true] at he
      have hstep : dedupeByName nm (e :: es) = e :: dedupeByName nm es := by
        cases es with
        | nil => simp [dedupeByName, he]
        | cons f fs =>
          show (if (e.2.name == nm) = true then f :: dedupeByName nm fs
                else e :: dedupeByName nm (f :: fs)) = _
          rw [if_neg (by simp [he])]
      rw [hstep, List.filter_cons]
      simp only [he, Bool.not_false, if_pos]
      rw [ih hnd.2]

theorem regPairs_fresh :
    ∀ (ps : List (OptDecl × FlagRec)) (c0 : Collector),
      ((ps.map (fun e => e.2.name)).Nodup) →
      (∀ e ∈ ps, ∀ x ∈ c0.opts, (x.2.name == e.2.name) = false) →
      (regPairs c0 ps).opts = c0.opts ++ ps := by
  intro ps
  induction ps with
  | nil => intro c0 _ _; simp [regPairs]
  | cons e es ih =>
    intro c0 hnd hfresh
    simp only [List.map_cons, List.nodup_cons] at hnd
    have hded : dedupeByName e.2.name c0.opts = c0.opts :=
      dedupeByName_id _ _ (fun x hx => hfresh e (List.mem_cons_self e es) x hx)
    have hstep : regPairs c0 (e :: es) =
        regPairs (Collector.mk (dedupeByName e.2.name c0.opts ++ [e]) c0.argDefs c0.cmds
          (setFlags e.2.aliases e.2 c0.flags) c0.unknowns) es := rfl
    rw [hstep, hded]
    have hside : ∀ x ∈ es, ∀ y ∈ (Collector.mk (c0.opts ++ [e]) c0.argDefs c0.cmds
        (setFlags e.2.aliases e.2 c0.flags) c0.unknowns).opts,
        (y.2.name == x.2.name) = false := by
      intro x hx y hy
      simp only [Collector.opts] at hy
      rcases List.mem_append.mp hy with hy | hy
      · exact hfresh x (List.mem_cons_of_mem e hx) y hy
      · have hy2 : y = e := by simpa using hy
        rw [hy2]
        have hne2 : e.2.name ≠ x.2.name := by
          intro hcontra
          exact hnd.1 (by rw [hcontra]; exact List.mem_map_of_mem _ hx)
        simpa using hne2
    rw [ih (Collector.mk (c0.opts ++ [e]) c0.argDefs c0.cmds
        (setFlags e.2.aliases e.2 c0.flags) c0.unknowns) hnd.2 hside]
    simp [Collector.opts]

/-- Re-registering the child's own options over an inherited list keeps
the inherited entries whose canonical names the child does not declare,
and appends the child's declarations. -/
theorem regPairs_override :
    ∀ (own : List (OptDecl × FlagRec)) (c1 : Collector),
      ((own.map (fun e => e.2.name)).Nodup) →
      ((c1.opts.map (fun e => e.2.name)).Nodup) →
      (regPairs c1 own).opts =
        c1.opts.filter (fun e => !((own.map (fun x => x.2.name)).contains e.2.name))
          ++ own := by
  intro own
  induction own with
  | nil => intro c1 _ _; simp [regPairs]
  | cons e es ih =>
    intro c1 hndo hndc
    simp only [List.map_cons, List.nodup_cons] at hndo
    have hded : dedupeByName e.2.name c1.opts =
        c1.opts.filter (fun x => !(x.2.name == e.2.name)) :=
      dedupeByName_filter _ _ hndc
    have hstep : regPairs c1 (e :: es) =
        regPairs (Collector.mk (dedupeByName e.2.name c1.opts ++ [e]) c1.argDefs c1.cmds
          (setFlags e.2.aliases e.2 c1.flags) c1.unknowns) es := rfl
    rw [hstep, hded]
    have hside : ((Collector.mk (c1.opts.filter (fun x => !(x.2.name == e.2.name)) ++ [e])
        c1.argDefs c1.cmds (setFlags e.2.aliases e.2 c1.flags) c1.unknowns).opts.map
          (fun x => x.2.name)).Nodup := by
      simp only [Collector.opts]
      simp only [List.map_append, List.map_cons, List.map_nil]
      rw [List.nodup_append]
      refine ⟨(List.Sublist.map _ (List.filter_sublist c1.opts)).nodup hndc, by simp, ?_⟩
      intro x hx
      simp only [List.mem_map] at hx
      obtain ⟨y, hy, rfl⟩ := hx
      have hyf := List.of_mem_filter hy
      simp only [List.mem_singleton]
      intro hcontra
      rw [hcontra] at hyf
      simp at hyf
    rw [ih (Collector.mk (c1.opts.filter (fun x => !(x.2.name == e.2.name)) ++ [e])
        c1.argDefs c1.cmds (setFlags e.2.aliases e.2 c1.flags) c1.unknowns) hndo.2 hside]
    simp only [Collector.opts, List.filter_append]
    have h1 : ∀ (l : List (OptDecl × FlagRec)),
        (l.filter (fun x => !(x.2.name == e.2.name))).filter
            (fun x => !((es.map (fun y => y.2.name)).contains x.2.name)) =
          l.filter (fun x =>
            !(((e :: es).map (fun y => y.2.name)).contains x.2.name)) := by
      intro l
      rw [List.filter_filter]
      apply List.filter_congr
      intro x _
      simp [List.contains, Bool.and_comm, eq_comm]
    have h2 : [e].filter (fun x => !((es.map (fun y => y.2.name)).contains x.2.name))
        = [e] := by
      simp only [List.filter_cons, List.filter_nil]
      have hnc : ((es.map (fun y => y.2.name)).contains e.2.name) = false := by
        cases hq : (es.map (fun y => y.2.name)).contains e.2.name
        · rfl
        · exact absurd (List.mem_of_elem_eq_true hq) hndo.1
      rw [hnc]
      rfl
    rw [h1, h2]
    simp

/-- C6: at each descent `_inherit` gives the matched child every parent
option not explicitly marked non-inheriting, child-declared options of
the same canonical name overriding the inherited ones; in particular a
parent with `--verbose` and a plain child yield
`options.verbose === true` when resolving `['child', '--verbose']`. -/
theorem C6_inheritance :
    (∀ (pOpts : List (OptDecl × FlagRec)) (c c' : Collector),
       (∀ e ∈ pOpts, flagParse e.1.flag e.1.dflt e.1.fn = some e.2) →
       (∀ e ∈ c.opts, flagParse e.1.flag e.1.dflt e.1.fn = some e.2) →
       (((pOpts.filter (fun e => e.1.inherits)).map (fun e => e.2.name)).Nodup) →
       ((c.opts.map (fun e => e.2.name)).Nodup) →
       inherit pOpts c = .ok c' →
       c'.opts = (pOpts.filter (fun e => e.1.inherits)).filter
           (fun e => !((c.opts.map (fun x => x.2.name)).contains e.2.name))
         ++ c.opts) ∧
    (∃ r, resolveRun cParent [some "child", some "--verbose"] = .ok r ∧
       getOptVal r.options "verbose" = .bool true ∧ r.argv = [some "--verbose"]) := by
  constructor
  · intro pOpts c c' hP hC hnP hnC hin
    have hin2 : (match (Collector.mk [] c.argDefs c.cmds [] c.unknowns).optionMany
        ((pOpts.filter (fun e => e.1.inherits)).map (fun x => x.1)) with
      | Except.error err => (Except.error err : Except String Collector)
      | Except.ok c1 => c1.optionMany
          (c.opts.map (fun (x : OptDecl × FlagRec) => x.1))) = .ok c' := hin
    rw [optionMany_coherent (pOpts.filter (fun e => e.1.inherits))
        (Collector.mk [] c.argDefs c.cmds [] c.unknowns)
        (fun x hx => hP x (List.mem_of_mem_filter hx))] at hin2
    simp only at hin2
    rw [optionMany_coherent c.opts _ hC] at hin2
    simp only [Except.ok.injEq] at hin2
    subst hin2
    have h1 : (regPairs (Collector.mk [] c.argDefs c.cmds [] c.unknowns)
        (pOpts.filter (fun e => e.1.inherits))).opts =
        pOpts.filter (fun e => e.1.inherits) := by
      rw [regPairs_fresh _ _ hnP (fun x _ y hy => by simp [Collector.opts] at hy)]
      rfl
    rw [regPairs_override c.opts _ hnC (by rw [h1]; exact hnP), h1]
  · exact ⟨_, rfl, rfl, rfl⟩

/-- C6 witness: the inheritance law applied to the concrete
parent-child pair. -/
theorem C6_witness :
    ∃ c', inherit cParent.opts cChild = .ok c' ∧
      c'.opts = (cParent.opts.filter (fun e => e.1.inherits)).filter
          (fun e => !((cChild.opts.map (fun x => x.2.name)).contains e.2.name))
        ++ cChild.opts := by
  refine ⟨_, rfl, ?_⟩
  exact C6_inheritance.1 cParent.opts cChild _
    (by
      intro e he
      simp only [cParent, Collector.opts, List.mem_singleton] at he
      subst he
      rfl)
    (by intro e he; simp [cChild, Collector.opts] at he)
    (by simp [cParent, Collector.opts])
    (by simp [cChild, Collector.opts])
    rfl

/-! ## C10: the heap model never mutates the caller's argv array -/

/-- Reading at a reference other than the written one is unchanged. -/
theorem hRead_hWrite_ne (h : Heap) (r q : Ref) (v : List JStr) (hne : r ≠ q) :
    hRead (hWrite h q v) r = hRead h r := by
  simp only [hRead, hWrite]
  rw [List.get?_eq_getElem?, List.get?_eq_getElem?, List.getElem?_set_ne (Ne.symm hne)]

/-- Allocation extends the heap; reads of existing references are
unchanged. -/
theorem hRead_append_lt (h : Heap) (l : List (List JStr)) (r : Ref)
    (hr : r < h.length) :
    hRead (h ++ l) r = hRead h r := by
  simp only [hRead]
  rw [List.get?_eq_getElem?, List.get?_eq_getElem?, List.getElem?_append_left hr]

/-- The `optRight` loop writes only through the three references it is
given: every other reference reads the same before and after. -/
theorem orLoop_frame (m : List (String × FlagRec)) (fuel : Nat)
    (allR argR optR r : Ref)
    (hna : r ≠ allR) (hng : r ≠ argR) (hno : r ≠ optR) :
    ∀ h : Heap, hRead (orLoop m fuel allR argR optR h) r = hRead h r := by
  induction fuel with
  | zero => intro h; rfl
  | succ fuel ih =>
    intro h
    cases hall : hRead h allR with
    | nil => simp only [orLoop, hall]
    | cons next rest =>
      simp only [orLoop, hall]
      cases ho : isOpt next with
      | false =>
        rw [if_neg Bool.false_ne_true]
        rw [ih, hRead_hWrite_ne _ _ _ _ hng, hRead_hWrite_ne _ _ _ _ hna]
      | true =>
        rw [if_pos rfl]
        cases hcv : consumesVal m next with
        | false =>
          rw [if_neg Bool.false_ne_true]
          rw [ih, hRead_hWrite_ne _ _ _ _ hno, hRead_hWrite_ne _ _ _ _ hna]
        | true =>
          rw [if_pos rfl]
          cases hv : hRead (hWrite (hWrite h allR rest) optR
              (hRead (hWrite h allR rest) optR ++ [next])) allR with
          | nil =>
            simp only [hv]
            rw [ih, hRead_hWrite_ne _ _ _ _ hno, hRead_hWrite_ne _ _ _ _ hno,
              hRead_hWrite_ne _ _ _ _ hna]
          | cons v vr =>
            simp only [hv]
            rw [ih, hRead_hWrite_ne _ _ _ _ hno, hRead_hWrite_ne _ _ _ _ hna,
              hRead_hWrite_ne _ _ _ _ hno, hRead_hWrite_ne _ _ _ _ hna]

/-- The reduce loop of `resolve` writes only through the `list`
reference. -/
theorem rcvLoop_frame (cm : Collector) (fuel : Nat) (listR r : Ref)
    (hne : r ≠ listR) :
    ∀ (st : PResult) (h : Heap),
      hRead (rcvLoop cm fuel listR st h).2 r = hRead h r := by
  induction fuel with
  | zero => intro st h; rfl
  | succ fuel ih =>
    intro st h
    cases hl : hRead h listR with
    | nil => simp only [rcvLoop, hl]
    | cons next rest =>
      simp only [rcvLoop, hl]
      cases ho : isOpt next with
      | false =>
        rw [if_neg Bool.false_ne_true]
        cases hp : pushArg cm.argDefs st.args next with
        | error e =>
          simp only [hp]
          exact hRead_hWrite_ne _ _ _ _ hne
        | ok args1 =>
          simp only [hp]
          rw [ih, hRead_hWrite_ne _ _ _ _ hne]
      | true =>
        rw [if_pos rfl]
        cases hp1 : (optVal cm st.options (next.getD "")
            (hRead (hWrite h listR rest) listR)).1 with
        | false =>
          rw [if_neg Bool.false_ne_true]
          cases hp2 : (optVal cm st.options (next.getD "")
              (hRead (hWrite h listR rest) listR)).2 with
          | error e =>
            simp only [hp2]
            exact hRead_hWrite_ne _ _ _ _ hne
          | ok nv =>
            simp only [hp2]
            rw [ih, hRead_hWrite_ne _ _ _ _ hne]
        | true =>
          rw [if_pos rfl]
          cases hp2 : (optVal cm st.options (next.getD "")
              (hRead (hWrite h listR rest) listR)).2 with
          | error e =>
            simp only [hp2]
            rw [hRead_hWrite_ne _ _ _ _ hne, hRead_hWrite_ne _ _ _ _ hne]
          | ok nv =>
            simp only [hp2]
            rw [ih, hRead_hWrite_ne _ _ _ _ hne, hRead_hWrite_ne _ _ _ _ hne]

/-- The finishing steps of `resolve` write only through `list`: any
other live reference reads the same afterwards. -/
theorem resolveFinishH_frame (cm : Collector) (listR r : Ref) (h2 : Heap)
    (hne : r ≠ listR) (hr2 : r < h2.length) :
    hRead (resolveFinishH cm listR h2).2 r = hRead h2 r := by
  rcases hrcv : rcvLoop cm (hRead (h2 ++ [hRead h2 listR]) listR).length listR
      ⟨[], []⟩ (h2 ++ [hRead h2 listR]) with ⟨res, h4⟩
  have hfr := rcvLoop_frame cm (hRead (h2 ++ [hRead h2 listR]) listR).length
      listR r hne ⟨[], []⟩ (h2 ++ [hRead h2 listR])
  rw [hrcv] at hfr
  have hfr2 : hRead h4 r = hRead h2 r := hfr.trans (hRead_append_lt _ _ _ hr2)
  cases res with
  | error e =>
    simp only [resolveFinishH, hAlloc, hrcv]
    exact hfr2
  | ok st =>
    cases hv : verify cm (applyDefaults cm st) with
    | error e =>
      simp only [resolveFinishH, hAlloc, hrcv, hv]
      exact hfr2
    | ok u =>
      simp only [resolveFinishH, hAlloc, hrcv, hv]
      exact hfr2

/-- The `optRight` embedding leaves every array that existed before the
call untouched: it works on a copy of the argv array. -/
theorem optRightH_frame (m : List (String × FlagRec)) (r0 r : Ref) (h : Heap)
    (hr : r < h.length) :
    hRead (optRightH m r0 h).2 r = hRead h r := by
  have hl1 : r < (h ++ [hRead h r0]).length := by
    simpa using Nat.lt_succ_of_lt hr
  have hl2 : r < ((h ++ [hRead h r0]) ++ [[]]).length := by
    simpa using Nat.lt_succ_of_lt (Nat.lt_succ_of_lt hr)
  have hna : r ≠ h.length := Nat.ne_of_lt hr
  have hng : r ≠ (h ++ [hRead h r0]).length := Nat.ne_of_lt hl1
  have hno : r ≠ ((h ++ [hRead h r0]) ++ [[]]).length := Nat.ne_of_lt hl2
  simp only [optRightH, hAlloc]
  rw [orLoop_frame m _ _ _ _ r hna hng hno]
  rw [hRead_append_lt _ _ _ hl2, hRead_append_lt _ _ _ hl1,
    hRead_append_lt _ _ _ hr]

/-- The `argShift` embedding shares `optRight`'s heap and so also leaves
pre-existing arrays untouched. -/
theorem argShiftH_frame (m : List (String × FlagRec)) (r0 r : Ref) (h : Heap)
    (hr : r < h.length) :
    hRead (argShiftH m r0 h).2 r = hRead h r :=
  optRightH_frame m r0 r h hr

/-- The `resolve` embedding leaves every pre-existing array untouched on
all paths, including the error paths. -/
theorem resolveH_frame (c : Collector) (r0 r : Ref) (h : Heap)
    (hr : r < h.length) :
    hRead (resolveH c r0 h).2 r = hRead h r := by
  cases hs : sliceGo c (hRead (h ++ [hRead h r0]) h.length) 0 none 0 with
  | error e =>
    simp only [resolveH, hAlloc, hs]
    exact hRead_append_lt _ _ _ hr
  | ok t =>
    obtain ⟨cm, start, len⟩ := t
    simp only [resolveH, hAlloc, hs]
    cases hlen : (len != 0) with
    | false =>
      have hne : r ≠ h.length := Nat.ne_of_lt hr
      have hl1 : r < (h ++ [hRead h r0]).length := by
        simpa using Nat.lt_succ_of_lt hr
      rw [if_neg Bool.false_ne_true]
      rw [resolveFinishH_frame cm h.length r (h ++ [hRead h r0]) hne hl1]
      exact hRead_append_lt _ _ _ hr
    | true =>
      have hne : r ≠ h.length := Nat.ne_of_lt hr
      have hl2 : r < (hWrite (h ++ [hRead h r0]) h.length
          (splice (hRead (h ++ [hRead h r0]) h.length) (start.getD 0) len)).length := by
        simp only [hWrite, List.length_set]
        simpa using Nat.lt_succ_of_lt hr
      rw [if_pos rfl]
      rw [resolveFinishH_frame cm h.length r _ hne hl2]
      rw [hRead_hWrite_ne _ _ _ _ hne]
      exact hRead_append_lt _ _ _ hr

/-- C10: `resolve`, `optRight` and `argShift` never mutate the argv
array handed to them: in the heap model, every array that existed
before the call (in particular the argv array itself) reads
element-for-element the same afterwards. -/
theorem C10_no_argv_mutation :
    ∀ (m : List (String × FlagRec)) (c : Collector) (h : Heap) (r0 r : Ref),
      r < h.length →
      hRead (optRightH m r0 h).2 r = hRead h r ∧
      hRead (argShiftH m r0 h).2 r = hRead h r ∧
      hRead (resolveH c r0 h).2 r = hRead h r := by
  intro m c h r0 r hr
  exact ⟨optRightH_frame m r0 r h hr, argShiftH_frame m r0 r h hr,
    resolveH_frame c r0 r h hr⟩

/-- C10 witness: a one-array heap holding argv `['a', '-f', 'v']`,
resolved and scanned through reference 0, reads unchanged at 0. -/
theorem C10_witness :
    0 < ([[some "a", some "-f", some "v"]] : Heap).length ∧
    (hRead (optRightH mFG 0 [[some "a", some "-f", some "v"]]).2 0 =
        hRead [[some "a", some "-f", some "v"]] 0 ∧
      hRead (argShiftH mFG 0 [[some "a", some "-f", some "v"]]).2 0 =
        hRead [[some "a", some "-f", some "v"]] 0 ∧
      hRead (resolveH cmFile 0 [[some "a", some "-f", some "v"]]).2 0 =
        hRead [[some "a", some "-f", some "v"]] 0) :=
  ⟨by decide,
    C10_no_argv_mutation mFG cmFile [[some "a", some "-f", some "v"]] 0 0
      (by decide)⟩

end Jib
